import Mathlib

/-!
Verification of the LLSparseMatrix sparse-matrix implementation
(singly linked list of non-zero entries, kept in row-major position order).

The definitions below are a shallow embedding of the C++ class
LLSparseMatrix<T> from SparseMatrices/LLSparseMatrix.h, instantiated at
integer element type.  C++ ints are modelled as unbounded Int (the spec and
the claims never concern integer overflow).  The singly linked node chain is
modelled as a Lean List of nodes kept in the same order; methods that mutate
the object are state-passing functions returning the new object state
together with an optional exception (C++ throws happen before any field
assignment, which the embedding reproduces literally).
-/

namespace SparseMatrices

/-- Error kinds corresponding to the std::invalid_argument exceptions thrown
by the class: out-of-bounds element access, shrinking resize, and
incompatible multiply operands. -/
inductive MatrixError where
  | outOfBounds
  | invalidResize
  | dimensionMismatch
deriving DecidableEq, Repr

/-- Embedding of struct LLSparseMatrix<T>::MatrixNode: one stored entry
(row, col, value); the nextNode pointer becomes the list structure. -/
structure MatrixNode where
  row : Int
  col : Int
  value : Int
deriving DecidableEq, Repr

/-- Embedding of the object state: fields rowCount, colCount,
nonZeroElementsCount and the node chain reachable from firstNode. -/
structure LLSparseMatrix where
  rowCount : Int
  colCount : Int
  nonZeroElementsCount : Int
  entries : List MatrixNode
deriving DecidableEq, Repr

/-- Embedding of the (rows, cols) constructor: extents as given, zero
non-zero count, empty node chain. -/
def LLSparseMatrix.make (rows cols : Int) : LLSparseMatrix :=
  ⟨rows, cols, 0, []⟩

/-- Embedding of LLSparseMatrix<T>::InBoundaries. -/
def InBoundaries (m : LLSparseMatrix) (row col : Int) : Bool :=
  (decide (row < m.rowCount) && decide (row ≥ 0))
    && (decide (col < m.colCount) && decide (col ≥ 0))

/-- Embedding of LLSparseMatrix<T>::GetPosition: colCount * row + col,
computed against an explicitly passed current column count. -/
def GetPosition (colCount row col : Int) : Int :=
  colCount * row + col

/-- Embedding of LLSparseMatrix<T>::GetRowCount. -/
def GetRowCount (m : LLSparseMatrix) : Int := m.rowCount

/-- Embedding of LLSparseMatrix<T>::GetColCount. -/
def GetColCount (m : LLSparseMatrix) : Int := m.colCount

/-- Embedding of LLSparseMatrix<T>::GetNonZeroElementsCount. -/
def GetNonZeroElementsCount (m : LLSparseMatrix) : Int := m.nonZeroElementsCount

/-- Coordinate comparison used by the search loops of ElementAt, SetElement
and RemoveElement: node->row == row && node->col == col. -/
def coordMatch (row col : Int) (n : MatrixNode) : Bool :=
  n.row == row && n.col == col

/-- Embedding of LLSparseMatrix<T>::ElementAt: throws when out of bounds,
otherwise returns the value of the first node matching (row, col), or the
default value T() = 0 when no node matches. -/
def ElementAt (m : LLSparseMatrix) (row col : Int) : Except MatrixError Int :=
  if ¬ InBoundaries m row col then
    .error .outOfBounds
  else
    match m.entries.find? (coordMatch row col) with
    | some n => .ok n.value
    | none => .ok 0

/-- Embedding of the insertion walk inside LLSparseMatrix<T>::SetElement:
overwrite in place on a coordinate match, insert before the first node of
strictly larger position, append at the end otherwise.  The empty case also
covers the firstNode == nullptr branch of the C++. -/
def insertLoop (cc row col v : Int) : List MatrixNode → List MatrixNode
  | [] => [⟨row, col, v⟩]
  | n :: rest =>
    if coordMatch row col n then
      ⟨row, col, v⟩ :: rest
    else if GetPosition cc row col < GetPosition cc n.row n.col then
      ⟨row, col, v⟩ :: n :: rest
    else
      n :: insertLoop cc row col v rest

/-- Embedding of LLSparseMatrix<T>::SetElement.  Faithful detail: the check
for a zero value returns before touching anything, and the increment of
nonZeroElementsCount happens before the walk, hence also on an overwrite of
an existing entry. -/
def SetElement (m : LLSparseMatrix) (row col v : Int) :
    LLSparseMatrix × Option MatrixError :=
  if ¬ InBoundaries m row col then
    (m, some .outOfBounds)
  else if v == 0 then
    (m, none)
  else
    ({ m with
        nonZeroElementsCount := m.nonZeroElementsCount + 1,
        entries := insertLoop m.colCount row col v m.entries }, none)

/-- Embedding of the removal walk inside LLSparseMatrix<T>::RemoveElement:
unlink the first node matching (row, col) and report whether one was found. -/
def removeLoop (row col : Int) : List MatrixNode → List MatrixNode × Bool
  | [] => ([], false)
  | n :: rest =>
    if coordMatch row col n then
      (rest, true)
    else
      let r := removeLoop row col rest
      (n :: r.1, r.2)

/-- Embedding of LLSparseMatrix<T>::RemoveElement: bounds check, then the
removal walk; nonZeroElementsCount is decremented only when a node was
actually removed.  Returns ((new state, found), optional exception). -/
def RemoveElement (m : LLSparseMatrix) (row col : Int) :
    (LLSparseMatrix × Bool) × Option MatrixError :=
  if ¬ InBoundaries m row col then
    ((m, false), some .outOfBounds)
  else
    let r := removeLoop row col m.entries
    (({ m with
        entries := r.1,
        nonZeroElementsCount :=
          if r.2 then m.nonZeroElementsCount - 1 else m.nonZeroElementsCount },
      r.2), none)

/-- Embedding of LLSparseMatrix<T>::Resize: rejects any strictly shrinking
dimension before mutating, otherwise updates the extents in place. -/
def Resize (m : LLSparseMatrix) (rows cols : Int) :
    LLSparseMatrix × Option MatrixError :=
  if rows < m.rowCount ∨ cols < m.colCount then
    (m, some .invalidResize)
  else
    ({ m with rowCount := rows, colCount := cols }, none)

/-- Embedding of LLSparseMatrix<T>::MergeLists: merge two node chains,
preferring the left head on equal positions (stable). -/
def MergeLists (cc : Int) : List MatrixNode → List MatrixNode → List MatrixNode
  | [], l2 => l2
  | l1, [] => l1
  | n1 :: r1, n2 :: r2 =>
    if GetPosition cc n1.row n1.col ≤ GetPosition cc n2.row n2.col then
      n1 :: MergeLists cc r1 (n2 :: r2)
    else
      n2 :: MergeLists cc (n1 :: r1) r2
termination_by l1 l2 => l1.length + l2.length

/-- Embedding of LLSparseMatrix<T>::SplitList: the slow/fast pointer walk
tears a chain of n nodes into its first ceil(n/2) nodes and the rest. -/
def SplitList (l : List MatrixNode) : List MatrixNode × List MatrixNode :=
  (l.take ((l.length + 1) / 2), l.drop ((l.length + 1) / 2))

set_option linter.unusedVariables false in
/-- Embedding of LLSparseMatrix<T>::SortByPosition: merge sort of the node
chain by the position key computed against the given column count. -/
def SortByPosition (cc : Int) (l : List MatrixNode) : List MatrixNode :=
  if h : l.length ≤ 1 then l
  else
    MergeLists cc (SortByPosition cc (SplitList l).1) (SortByPosition cc (SplitList l).2)
termination_by l.length
decreasing_by
  · simp only [SplitList, List.length_take]
    omega
  · simp only [SplitList, List.length_drop]
    omega

/-- Embedding of LLSparseMatrix<T>::Transpose: swap row and col on every
node, swap the extents, then resort by position against the new column
count (which is the old row count). -/
def Transpose (m : LLSparseMatrix) : LLSparseMatrix :=
  { rowCount := m.colCount,
    colCount := m.rowCount,
    nonZeroElementsCount := m.nonZeroElementsCount,
    entries :=
      SortByPosition m.rowCount (m.entries.map (fun n => ⟨n.col, n.row, n.value⟩)) }

/-- Accumulator of the multiplication loops: the std::map from result
coordinates to accumulated partial sums, modelled as an association list
kept sorted by the lexicographic pair order std::map uses, so that the
final iteration order matches the C++. -/
abbrev AccMap := List ((Int × Int) × Int)

/-- Lexicographic strict order on result coordinates (the std::map key
comparison for std::pair of ints). -/
def keyLt (a b : Int × Int) : Bool :=
  decide (a.1 < b.1) || (a.1 == b.1 && decide (a.2 < b.2))

/-- Embedding of idxValMap[key] += v: operator[] default-constructs an
absent slot to 0, then += adds; the slot is created at its ordered place. -/
def mapAdd (k : Int × Int) (v : Int) : AccMap → AccMap
  | [] => [(k, v)]
  | (k', v') :: rest =>
    if k == k' then (k', v' + v) :: rest
    else if keyLt k k' then (k, v) :: (k', v') :: rest
    else (k', v') :: mapAdd k v rest

/-- Embedding of the inner scan of LLSparseMatrix<T>::Multiply for one entry
of the left operand: skip the right operand chain while its row differs from
the left entry column, then take the contiguous run of matching rows. -/
def runOf (bEntries : List MatrixNode) (k : Int) : List MatrixNode :=
  (bEntries.dropWhile (fun n => n.row != k)).takeWhile (fun n => n.row == k)

/-- Embedding of the multiplication loop of LLSparseMatrix<T>::Multiply:
for every entry of the left operand, accumulate its products with the run
of right-operand entries whose row matches its column. -/
def mulLoop (bEntries : List MatrixNode) : List MatrixNode → AccMap → AccMap
  | [], acc => acc
  | a :: rest, acc =>
    mulLoop bEntries rest
      ((runOf bEntries a.col).foldl
        (fun acc' b => mapAdd (a.row, b.col) (a.value * b.value) acc') acc)

/-- SetElement reshaped into the Except monad: an exception raised inside a
caller (the writeback loop of Multiply) propagates out of it. -/
def setElementE (m : LLSparseMatrix) (row col v : Int) :
    Except MatrixError LLSparseMatrix :=
  match SetElement m row col v with
  | (m', none) => .ok m'
  | (_, some e) => .error e

/-- Embedding of the final writeback loop shared by both multiply variants:
iterate the accumulator map in its key order and SetElement each sum into
the result matrix (zero sums are suppressed by SetElement itself). -/
def writeMap (acc : AccMap) (m0 : LLSparseMatrix) :
    Except MatrixError LLSparseMatrix :=
  acc.foldlM (fun m kv => setElementE m kv.1.1 kv.1.2 kv.2) m0

/-- Embedding of LLSparseMatrix<T>::Multiply.  The nullptr argument check
has no counterpart here (the operand is a value); the dimension check, the
early return on an empty operand chain, the accumulate-by-key loop and the
writeback are transcribed in order. -/
def Multiply (m other : LLSparseMatrix) : Except MatrixError LLSparseMatrix :=
  if ¬ (m.colCount == other.rowCount) then
    .error .dimensionMismatch
  else
    let result := LLSparseMatrix.make m.rowCount other.colCount
    if m.entries.isEmpty || other.entries.isEmpty then
      .ok result
    else
      writeMap (mulLoop other.entries m.entries []) result

/-- Effect of a Multiply call on the three objects involved: the method body
performs no assignment through this or other (every write targets the
freshly allocated result, a local pointer, or the local accumulator map), so
the operand states after the call are the operand states before it. -/
def MultiplyCall (m other : LLSparseMatrix) :
    LLSparseMatrix × LLSparseMatrix × Except MatrixError LLSparseMatrix :=
  (m, other, Multiply m other)

/-- Outcome of the deprecated multiplication co-walk: the accumulated map on
a normal break, a null pointer dereference (undefined behaviour in the C++),
or exhaustion of the fuel bounding the unbounded while loop. -/
inductive DepResult where
  | ok (acc : AccMap)
  | nullDeref
  | fuelOut
deriving DecidableEq, Repr

/-- Embedding of the inner while of the otherItr == nullptr block of
Multiply_DEPRECATED: advance thisItr while the current row start row is not
less than its row; stop with isLastRow when its successor is null.  An empty
thisItr means the C++ dereferences a null pointer in the loop condition. -/
def depInnerScan (cRSrow : Int) : List MatrixNode → Bool → Option (List MatrixNode × Bool)
  | [], _ => none
  | t :: ts, isLastRow =>
    if ¬ (cRSrow < t.row) then
      match ts with
      | [] => some (t :: ts, true)
      | _ :: _ => depInnerScan cRSrow ts isLastRow
    else
      some (t :: ts, isLastRow)

/-- Embedding of the while (true) loop of LLSparseMatrix<T>::Multiply_DEPRECATED,
transcribed block by block.  Iterators into the two node chains are the
corresponding list suffixes; every pointer dereference is guarded, an empty
list where the C++ reads through the pointer yields nullDeref. -/
def depLoop (bFirst : List MatrixNode) :
    Nat → List MatrixNode → List MatrixNode → List MatrixNode → Bool → AccMap → DepResult
  | 0, _, _, _, _, _ => .fuelOut
  | fuel + 1, thisItr, otherItr, cRS, isLastRow, acc =>
    -- block: if (thisItr == nullptr) { last row ended, or both chains done }
    let step1 : Option (List MatrixNode × Bool) :=
      match thisItr, otherItr with
      | [], [] => none
      | [], [_] => none
      | [], _ :: _ :: _ => some (cRS, true)
      | t :: ts, _ => some (t :: ts, isLastRow)
    match step1 with
    | none => .ok acc
    | some (thisItr1, isLast1) =>
      -- block: if (otherItr == nullptr) { rewind other, advance to next row }
      let step2 : Option (Option (List MatrixNode × List MatrixNode × List MatrixNode × Bool)) :=
        match otherItr with
        | _ :: _ => some (some (thisItr1, otherItr, cRS, isLast1))
        | [] =>
          match cRS with
          | [] => none
          | c :: _ =>
            match depInnerScan c.row thisItr1 isLast1 with
            | none => none
            | some (thisItr2, isLast2) =>
              if isLast2 then some none
              else some (some (thisItr2, bFirst, thisItr2, isLast2))
      match step2 with
      | none => .nullDeref
      | some none => .ok acc
      | some (some (thisItr2, otherItr2, cRS2, isLast2)) =>
        -- block: if (thisItr->row != currentRowStart->row) { get back }
        match thisItr2, cRS2 with
        | [], _ => .nullDeref
        | _, [] => .nullDeref
        | t0 :: ts0, c0 :: cs0 =>
          let thisItr3 := if ¬ (t0.row == c0.row) then c0 :: cs0 else t0 :: ts0
          match thisItr3, otherItr2 with
          | [], _ => .nullDeref
          | _, [] => .nullDeref
          | t :: ts, o :: os =>
            if t.col == o.col then
              let acc' := mapAdd (t.row, o.row) (t.value * o.value) acc
              match ts, os with
              | [], [] =>
                depLoop bFirst fuel [] [] (c0 :: cs0) isLast2 acc'
              | [], o2 :: os' =>
                if ¬ (o.row == o2.row) then
                  depLoop bFirst fuel (c0 :: cs0) (o2 :: os') (c0 :: cs0) isLast2 acc'
                else
                  depLoop bFirst fuel [] (o2 :: os') (c0 :: cs0) isLast2 acc'
              | t2 :: ts', [] =>
                depLoop bFirst fuel (t2 :: ts') [] (c0 :: cs0) isLast2 acc'
              | t2 :: ts', o2 :: os' =>
                if t2.row == o2.row then
                  (if ¬ (o.row == o2.row) then
                    depLoop bFirst fuel (c0 :: cs0) (o2 :: os') (c0 :: cs0) isLast2 acc'
                  else
                    depLoop bFirst fuel (t2 :: ts') (o2 :: os') (c0 :: cs0) isLast2 acc')
                else if t2.row > o2.row then
                  depLoop bFirst fuel (t :: ts) (o2 :: os') (c0 :: cs0) isLast2 acc'
                else
                  depLoop bFirst fuel (t2 :: ts') (o :: os) (c0 :: cs0) isLast2 acc'
            else if t.col < o.col then
              let otherNext :=
                match ts with
                | [] => o :: os
                | t2 :: _ => if ¬ (t.row == t2.row) then os else o :: os
              depLoop bFirst fuel ts otherNext (c0 :: cs0) isLast2 acc
            else
              let thisNext :=
                match os with
                | [] => t :: ts
                | o2 :: _ => if ¬ (o.row == o2.row) then c0 :: cs0 else t :: ts
              depLoop bFirst fuel thisNext os (c0 :: cs0) isLast2 acc

/-- Overall outcome of LLSparseMatrix<T>::Multiply_DEPRECATED. -/
inductive DepOutcome where
  | ok (result : LLSparseMatrix)
  | dimError
  | writeErr (e : MatrixError)
  | crash
  | fuelOut
deriving DecidableEq, Repr

/-- Embedding of LLSparseMatrix<T>::Multiply_DEPRECATED: dimension check,
transpose of the right operand, the co-walk loop starting from the heads of
both chains, and the writeback of the accumulator into the fresh result.
The closing transpose restoring the right operand does not influence the
returned result. -/
def Multiply_DEPRECATED (m other : LLSparseMatrix) (fuel : Nat) : DepOutcome :=
  if ¬ (m.colCount == other.rowCount) then
    .dimError
  else
    let result := LLSparseMatrix.make m.rowCount other.colCount
    let otherT := Transpose other
    match depLoop otherT.entries fuel m.entries otherT.entries m.entries false [] with
    | .nullDeref => .crash
    | .fuelOut => .fuelOut
    | .ok acc =>
      match writeMap acc result with
      | .ok r => .ok r
      | .error e => .writeErr e

/-! Specification-level definitions: the store invariant the spec states for
the entry chain, total lookup helpers, the dense count of non-zero
coordinates, and the mathematical dot product used by the multiply claim. -/

/-- Position of a node under a given column count. -/
def posOf (cc : Int) (n : MatrixNode) : Int :=
  GetPosition cc n.row n.col

/-- The chain is in non-decreasing position order for column count cc. -/
def sortedByPos (cc : Int) (l : List MatrixNode) : Prop :=
  l.Pairwise (fun a b => posOf cc a ≤ posOf cc b)

/-- No two nodes of the chain share a (row, col) coordinate. -/
def coordUniq (l : List MatrixNode) : Prop :=
  l.Pairwise (fun a b => ¬ (a.row = b.row ∧ a.col = b.col))

/-- Store invariant of the spec: entries sorted by position against the
current column count, duplicate-free coordinates, no stored zero value, and
every entry within the current extents. -/
def StoreInv (m : LLSparseMatrix) : Prop :=
  sortedByPos m.colCount m.entries ∧ coordUniq m.entries ∧
    (∀ n ∈ m.entries, n.value ≠ 0) ∧
    (∀ n ∈ m.entries,
      0 ≤ n.row ∧ n.row < m.rowCount ∧ 0 ≤ n.col ∧ n.col < m.colCount)

/-- Count invariant: the store invariant plus agreement of the cached
nonZeroElementsCount with the chain length. -/
def CountInv (m : LLSparseMatrix) : Prop :=
  StoreInv m ∧ m.nonZeroElementsCount = m.entries.length

instance (m : LLSparseMatrix) : Decidable (StoreInv m) := by
  unfold StoreInv sortedByPos coordUniq
  infer_instance

instance (m : LLSparseMatrix) : Decidable (CountInv m) := by
  unfold CountInv
  infer_instance

/-- Out-of-range condition of the claims: a negative index or one at or past
the corresponding extent. -/
def OutOfRange (m : LLSparseMatrix) (row col : Int) : Prop :=
  row < 0 ∨ col < 0 ∨ m.rowCount ≤ row ∨ m.colCount ≤ col

instance (m : LLSparseMatrix) (row col : Int) : Decidable (OutOfRange m row col) := by
  unfold OutOfRange
  infer_instance

/-- Value of the first node of the chain matching (row, col), zero when none
does: the guard-free core of ElementAt. -/
def lookupVal (l : List MatrixNode) (row col : Int) : Int :=
  match l.find? (coordMatch row col) with
  | some n => n.value
  | none => 0

/-- Total variant of ElementAt on in-bounds coordinates. -/
def elemVal (m : LLSparseMatrix) (row col : Int) : Int :=
  lookupVal m.entries row col

/-- Whether some node of the chain carries the coordinate (row, col). -/
def hasCoord (l : List MatrixNode) (row col : Int) : Bool :=
  l.any (coordMatch row col)

/-- The integers 0, 1, ..., n-1 (empty when n is not positive). -/
def intRange (n : Int) : List Int :=
  (List.range n.toNat).map (fun (k : Nat) => (k : Int))

/-- All in-bounds coordinates of the matrix, row-major. -/
def coordGrid (m : LLSparseMatrix) : List (Int × Int) :=
  (intRange m.rowCount).flatMap (fun i => (intRange m.colCount).map (fun j => (i, j)))

/-- Number of in-bounds coordinates holding a non-zero element value. -/
def nonzeroCoordCount (m : LLSparseMatrix) : Nat :=
  (coordGrid m).countP (fun p => elemVal m p.1 p.2 != 0)

/-- Mathematical product entry: sum over the inner dimension k of
A.element_at(i, k) * B.element_at(k, j). -/
def dotSum (a b : LLSparseMatrix) (i j : Int) : Int :=
  ((intRange a.colCount).map (fun k => elemVal a i k * elemVal b k j)).sum

/-- Accumulated value stored in the map for a key, zero when absent. -/
def mapGet (acc : AccMap) (k : Int × Int) : Int :=
  match acc.find? (fun kv => kv.1 == k) with
  | some kv => kv.2
  | none => 0

/-- Sum of the values of all accumulation events carrying a given key. -/
def keySum (evs : AccMap) (k : Int × Int) : Int :=
  ((evs.filter (fun e => e.1 == k)).map (fun e => e.2)).sum

/-- Flat list of the accumulation events performed by the multiplication
loop: one event per pair of a left-operand entry and a right-operand entry
of its matching run. -/
def events (aEnt bEnt : List MatrixNode) : AccMap :=
  aEnt.flatMap (fun a =>
    (runOf bEnt a.col).map (fun b => ((a.row, b.col), a.value * b.value)))

/-- Modelled from the spec: the C++ default constructor is declared
= default with no member initializers, so a default-initialized automatic
object has indeterminate extents and count (the tests nevertheless rely on
default construction yielding an empty matrix); section 6 of the spec,
new(0, 0), intends the empty 0-by-0 matrix modelled here. -/
def defaultLLSparseMatrix : LLSparseMatrix :=
  LLSparseMatrix.make 0 0

/-! Concrete matrices used by witnesses and counterexamples. -/

/-- Dense 2-by-3 operand of the multiplication test of the spec. -/
def matA : LLSparseMatrix :=
  ⟨2, 3, 6, [⟨0, 0, 1⟩, ⟨0, 1, 2⟩, ⟨0, 2, 3⟩, ⟨1, 0, 4⟩, ⟨1, 1, 5⟩, ⟨1, 2, 6⟩]⟩

/-- Dense 3-by-2 operand of the multiplication test of the spec. -/
def matB : LLSparseMatrix :=
  ⟨3, 2, 6, [⟨0, 0, 7⟩, ⟨0, 1, 8⟩, ⟨1, 0, 9⟩, ⟨1, 1, 10⟩, ⟨2, 0, 11⟩, ⟨2, 1, 12⟩]⟩

/-- Left operand on which the deprecated multiply loops forever: one entry
at (1, 0). -/
def depHangA : LLSparseMatrix :=
  ⟨2, 2, 1, [⟨1, 0, 1⟩]⟩

/-- Right operand on which the deprecated multiply loops forever: entries at
(1, 0) and (1, 1). -/
def depHangB : LLSparseMatrix :=
  ⟨2, 2, 2, [⟨1, 0, 1⟩, ⟨1, 1, 1⟩]⟩

/-- Matrix with no stored entry, on which the deprecated multiply
dereferences a null pointer when the right operand has two entries. -/
def depCrashA : LLSparseMatrix :=
  LLSparseMatrix.make 2 2

/-- Two-entry right operand for the null dereference of the deprecated
multiply. -/
def depCrashB : LLSparseMatrix :=
  ⟨2, 2, 2, [⟨0, 0, 1⟩, ⟨1, 1, 1⟩]⟩

/-! Lemmas on coordinate search. -/

theorem coordMatch_iff {row col : Int} {n : MatrixNode} :
    coordMatch row col n = true ↔ n.row = row ∧ n.col = col := by
  simp [coordMatch]

theorem posOf_eq_of_coords {cc : Int} {a b : MatrixNode}
    (hr : a.row = b.row) (hc : a.col = b.col) : posOf cc a = posOf cc b := by
  simp [posOf, GetPosition, hr, hc]

theorem find?_eq_head_filter (p : MatrixNode → Bool) (l : List MatrixNode) :
    l.find? p = (l.filter p).head? := by
  induction l with
  | nil => rfl
  | cons n rest ih =>
    by_cases h : p n
    · rw [List.find?_cons_of_pos _ h, List.filter_cons_of_pos h]
      rfl
    · rw [List.find?_cons_of_neg _ h, List.filter_cons_of_neg h, ih]

theorem filter_coord_len {l : List MatrixNode} (hu : coordUniq l) (row col : Int) :
    (l.filter (coordMatch row col)).length ≤ 1 := by
  unfold coordUniq at hu
  have hpw := List.Pairwise.filter (R := fun a b => ¬ (a.row = b.row ∧ a.col = b.col))
    (coordMatch row col) hu
  match hf : l.filter (coordMatch row col) with
  | [] => simp
  | [x] => simp
  | x :: y :: t =>
    exfalso
    have hx : x ∈ l.filter (coordMatch row col) := by
      rw [hf]; exact List.mem_cons_self _ _
    have hy : y ∈ l.filter (coordMatch row col) := by
      rw [hf]; exact List.mem_cons_of_mem _ (List.mem_cons_self _ _)
    obtain ⟨hxr, hxc⟩ := coordMatch_iff.mp (List.mem_filter.mp hx).2
    obtain ⟨hyr, hyc⟩ := coordMatch_iff.mp (List.mem_filter.mp hy).2
    rw [hf] at hpw
    exact (List.pairwise_cons.mp hpw).1 y (List.mem_cons_self _ _)
      ⟨by rw [hxr, hyr], by rw [hxc, hyc]⟩

theorem coordUniq_of_perm {l l' : List MatrixNode} (h : l.Perm l') (hu : coordUniq l) :
    coordUniq l' :=
  (h.pairwise_iff (fun hxy hc => hxy ⟨hc.1.symm, hc.2.symm⟩)).mp hu

theorem find?_coord_of_perm {l l' : List MatrixNode} (h : l.Perm l') (hu : coordUniq l)
    (row col : Int) :
    l.find? (coordMatch row col) = l'.find? (coordMatch row col) := by
  rw [find?_eq_head_filter, find?_eq_head_filter]
  have hperm := h.filter (coordMatch row col)
  have h1 := filter_coord_len hu row col
  have : l.filter (coordMatch row col) = l'.filter (coordMatch row col) := by
    match hf : l.filter (coordMatch row col) with
    | [] =>
      rw [hf] at hperm
      exact (List.Perm.eq_nil hperm.symm).symm
    | [x] =>
      rw [hf] at hperm
      exact (List.perm_singleton.mp hperm.symm).symm
    | x :: y :: t =>
      rw [hf] at h1
      simp at h1
  rw [this]

theorem lookupVal_of_perm {l l' : List MatrixNode} (h : l.Perm l') (hu : coordUniq l)
    (row col : Int) : lookupVal l row col = lookupVal l' row col := by
  simp [lookupVal, find?_coord_of_perm h hu row col]

theorem lookupVal_ne_zero_iff {l : List MatrixNode} (hz : ∀ n ∈ l, n.value ≠ 0)
    (row col : Int) :
    lookupVal l row col ≠ 0 ↔ hasCoord l row col = true := by
  unfold lookupVal hasCoord
  match hf : l.find? (coordMatch row col) with
  | some n =>
    have hmem := List.mem_of_find?_eq_some hf
    have hmatch := List.find?_some hf
    simp only [ne_eq]
    constructor
    · intro _
      exact List.any_eq_true.mpr ⟨n, hmem, hmatch⟩
    · intro _
      exact hz n hmem
  | none =>
    have := List.find?_eq_none.mp hf
    simp only [ne_eq, not_true_eq_false, false_iff]
    intro hc
    obtain ⟨n, hn, hm⟩ := List.any_eq_true.mp hc
    exact this n hn hm

/-! Lemmas on the insertion walk of SetElement. -/

theorem insertLoop_mem {cc row col v : Int} {l : List MatrixNode} {x : MatrixNode}
    (hx : x ∈ insertLoop cc row col v l) : x = ⟨row, col, v⟩ ∨ x ∈ l := by
  induction l with
  | nil =>
    simp [insertLoop] at hx
    exact Or.inl hx
  | cons n rest ih =>
    simp only [insertLoop] at hx
    by_cases h1 : coordMatch row col n
    · simp [h1] at hx
      rcases hx with hx | hx
      · exact Or.inl hx
      · exact Or.inr (List.mem_cons_of_mem _ hx)
    · by_cases h2 : GetPosition cc row col < GetPosition cc n.row n.col
      · simp [h1, h2] at hx
        rcases hx with hx | hx | hx
        · exact Or.inl hx
        · exact Or.inr (by simp [hx])
        · exact Or.inr (List.mem_cons_of_mem _ hx)
      · simp [h1, h2] at hx
        rcases hx with hx | hx
        · exact Or.inr (by simp [hx])
        · rcases ih hx with h | h
          · exact Or.inl h
          · exact Or.inr (List.mem_cons_of_mem _ h)

theorem insertLoop_find_self (cc row col v : Int) (l : List MatrixNode) :
    (insertLoop cc row col v l).find? (coordMatch row col) = some ⟨row, col, v⟩ := by
  have hself : coordMatch row col ⟨row, col, v⟩ = true := by simp [coordMatch]
  induction l with
  | nil => simp [insertLoop, List.find?_cons, hself]
  | cons n rest ih =>
    simp only [insertLoop]
    by_cases h1 : coordMatch row col n
    · simp [h1, List.find?_cons, hself]
    · by_cases h2 : GetPosition cc row col < GetPosition cc n.row n.col
      · simp [h1, h2, List.find?_cons, hself]
      · simp [h1, h2, List.find?_cons, ih]

theorem insertLoop_find_other (cc row col v : Int) {r c : Int}
    (hne : ¬ (row = r ∧ col = c)) (l : List MatrixNode) :
    (insertLoop cc row col v l).find? (coordMatch r c) = l.find? (coordMatch r c) := by
  have hnew : coordMatch r c ⟨row, col, v⟩ = false := by
    simp [coordMatch]
    intro h
    exact fun hc => hne ⟨h, hc⟩
  induction l with
  | nil => simp [insertLoop, List.find?_cons, hnew]
  | cons n rest ih =>
    simp only [insertLoop]
    by_cases h1 : coordMatch row col n
    · obtain ⟨hr, hc⟩ := coordMatch_iff.mp h1
      have hn : coordMatch r c n = false := by
        simp [coordMatch, hr, hc]
        intro h
        exact fun hcc => hne ⟨h, hcc⟩
      simp [h1, List.find?_cons, hnew, hn]
    · by_cases h2 : GetPosition cc row col < GetPosition cc n.row n.col
      · simp [h1, h2, List.find?_cons, hnew]
      · simp only [h1, h2, if_neg, Bool.false_eq_true, not_false_eq_true, if_false]
        by_cases h3 : coordMatch r c n
        · simp [List.find?_cons, h3]
        · simp [List.find?_cons, h3, ih]

theorem insertLoop_sorted {cc row col v : Int} {l : List MatrixNode}
    (hs : sortedByPos cc l) : sortedByPos cc (insertLoop cc row col v l) := by
  unfold sortedByPos at hs ⊢
  induction l with
  | nil => simp [insertLoop]
  | cons n rest ih =>
    obtain ⟨hn, hrest⟩ := List.pairwise_cons.mp hs
    simp only [insertLoop]
    by_cases h1 : coordMatch row col n
    · obtain ⟨hr, hc⟩ := coordMatch_iff.mp h1
      have hpos : posOf cc (⟨row, col, v⟩ : MatrixNode) = posOf cc n := by
        simp [posOf, GetPosition, hr, hc]
      simp only [h1, if_true]
      exact List.pairwise_cons.mpr ⟨fun x hx => hpos ▸ hn x hx, hrest⟩
    · by_cases h2 : GetPosition cc row col < GetPosition cc n.row n.col
      · simp only [h1, Bool.false_eq_true, if_false, h2, if_true]
        refine List.pairwise_cons.mpr ⟨?_, hs⟩
        intro x hx
        rcases List.mem_cons.mp hx with hx | hx
        · subst hx
          exact le_of_lt h2
        · exact le_trans (le_of_lt h2) (hn x hx)
      · simp only [h1, Bool.false_eq_true, if_false, h2, if_false]
        refine List.pairwise_cons.mpr ⟨?_, ih hrest⟩
        intro x hx
        rcases insertLoop_mem hx with hx | hx
        · subst hx
          simpa [posOf] using le_of_not_lt h2
        · exact hn x hx

theorem insertLoop_uniq {cc row col v : Int} {l : List MatrixNode}
    (hs : sortedByPos cc l) (hu : coordUniq l) :
    coordUniq (insertLoop cc row col v l) := by
  unfold coordUniq at hu ⊢
  unfold sortedByPos at hs
  induction l with
  | nil => simp [insertLoop]
  | cons n rest ih =>
    obtain ⟨hn, hrest⟩ := List.pairwise_cons.mp hu
    obtain ⟨hns, hrests⟩ := List.pairwise_cons.mp hs
    simp only [insertLoop]
    by_cases h1 : coordMatch row col n
    · obtain ⟨hr, hc⟩ := coordMatch_iff.mp h1
      simp only [h1, if_true]
      refine List.pairwise_cons.mpr ⟨?_, hrest⟩
      intro x hx hcoord
      exact hn x hx ⟨hr ▸ hcoord.1, hc ▸ hcoord.2⟩
    · by_cases h2 : GetPosition cc row col < GetPosition cc n.row n.col
      · simp only [h1, Bool.false_eq_true, if_false, h2, if_true]
        refine List.pairwise_cons.mpr ⟨?_, hu⟩
        intro x hx hcoord
        rcases List.mem_cons.mp hx with hx | hx
        · subst hx
          exact h1 (coordMatch_iff.mpr ⟨hcoord.1.symm, hcoord.2.symm⟩)
        · have hle := hns x hx
          have hr' : row = x.row := hcoord.1
          have hc' : col = x.col := hcoord.2
          have hpos : GetPosition cc row col = posOf cc x := by
            simp [posOf, GetPosition, hr', hc']
          rw [hpos] at h2
          exact absurd hle (not_le_of_lt h2)
      · simp only [h1, Bool.false_eq_true, if_false, h2, if_false]
        refine List.pairwise_cons.mpr ⟨?_, ih hrests hrest⟩
        intro x hx hcoord
        rcases insertLoop_mem hx with hx | hx
        · subst hx
          exact h1 (coordMatch_iff.mpr ⟨hcoord.1, hcoord.2⟩)
        · exact hn x hx hcoord

theorem insertLoop_length {cc row col v : Int} {l : List MatrixNode}
    (hs : sortedByPos cc l) :
    (insertLoop cc row col v l).length =
      if hasCoord l row col then l.length else l.length + 1 := by
  unfold sortedByPos at hs
  induction l with
  | nil => simp [insertLoop, hasCoord]
  | cons n rest ih =>
    obtain ⟨hns, hrests⟩ := List.pairwise_cons.mp hs
    simp only [insertLoop]
    by_cases h1 : coordMatch row col n
    · simp [h1, hasCoord, List.any_cons]
    · by_cases h2 : GetPosition cc row col < GetPosition cc n.row n.col
      · have hnone : hasCoord (n :: rest) row col = false := by
          simp only [hasCoord, List.any_cons, Bool.or_eq_false_iff]
          refine ⟨by simp [h1], ?_⟩
          simp only [List.any_eq_false]
          intro x hx hm
          obtain ⟨hr, hc⟩ := coordMatch_iff.mp hm
          have hle := hns x hx
          have hpos : GetPosition cc row col = posOf cc x := by
            simp [posOf, GetPosition, hr, hc]
          rw [hpos] at h2
          exact absurd hle (not_le_of_lt h2)
        simp [h1, h2, hnone]
      · have : hasCoord (n :: rest) row col = hasCoord rest row col := by
          simp [hasCoord, List.any_cons, h1]
        simp only [h1, Bool.false_eq_true, if_false, h2, if_false, List.length_cons,
          ih hrests, this]
        by_cases h3 : hasCoord rest row col
        · simp [h3]
        · simp [h3]

/-! Lemmas on bounds checking and SetElement. -/

theorem inBoundaries_iff {m : LLSparseMatrix} {row col : Int} :
    InBoundaries m row col = true ↔
      0 ≤ row ∧ row < m.rowCount ∧ 0 ≤ col ∧ col < m.colCount := by
  simp only [InBoundaries, Bool.and_eq_true, decide_eq_true_eq, ge_iff_le]
  omega

theorem SetElement_fail {m : LLSparseMatrix} {row col v : Int}
    (h : ¬ InBoundaries m row col = true) :
    SetElement m row col v = (m, some .outOfBounds) := by
  simp [SetElement, h]

theorem SetElement_zero {m : LLSparseMatrix} {row col : Int}
    (h : InBoundaries m row col = true) :
    SetElement m row col 0 = (m, none) := by
  simp [SetElement, h]

theorem SetElement_ok_state {m : LLSparseMatrix} {row col v : Int}
    (h : InBoundaries m row col = true) (hv : v ≠ 0) :
    SetElement m row col v =
      ({ m with
          nonZeroElementsCount := m.nonZeroElementsCount + 1,
          entries := insertLoop m.colCount row col v m.entries }, none) := by
  simp [SetElement, h, hv]

theorem SetElement_err (m : LLSparseMatrix) (row col v : Int) :
    (SetElement m row col v).2 =
      (if InBoundaries m row col then none else some .outOfBounds) := by
  unfold SetElement
  by_cases h : InBoundaries m row col
  · by_cases hv : v == 0 <;> simp [h, hv]
  · simp [h]

theorem SetElement_extents (m : LLSparseMatrix) (row col v : Int) :
    (SetElement m row col v).1.rowCount = m.rowCount ∧
      (SetElement m row col v).1.colCount = m.colCount := by
  unfold SetElement
  by_cases h : InBoundaries m row col
  · by_cases hv : v == 0 <;> simp [h, hv]
  · simp [h]

theorem SetElement_elemVal_self {m : LLSparseMatrix} {row col v : Int}
    (h : InBoundaries m row col = true) (hv : v ≠ 0) :
    elemVal (SetElement m row col v).1 row col = v := by
  rw [SetElement_ok_state h hv]
  simp [elemVal, lookupVal, insertLoop_find_self]

theorem SetElement_elemVal_other {m : LLSparseMatrix} {row col v r c : Int}
    (hne : ¬ (row = r ∧ col = c)) :
    elemVal (SetElement m row col v).1 r c = elemVal m r c := by
  unfold SetElement
  by_cases h : InBoundaries m row col
  · by_cases hv : v == 0
    · simp [h, hv]
    · simp only [h, hv, not_true_eq_false, if_false, Bool.false_eq_true, if_true,
        if_neg, elemVal, lookupVal]
      rw [insertLoop_find_other m.colCount row col v hne]
  · simp [h]

theorem SetElement_storeInv {m : LLSparseMatrix} {row col v : Int} (hm : StoreInv m) :
    StoreInv (SetElement m row col v).1 := by
  obtain ⟨hs, hu, hz, hb⟩ := hm
  unfold SetElement
  by_cases h : InBoundaries m row col
  · by_cases hv : v == 0
    · simp only [h, not_true_eq_false, if_false, hv, if_true]
      exact ⟨hs, hu, hz, hb⟩
    · simp only [h, not_true_eq_false, if_false, hv, Bool.false_eq_true, if_true]
      obtain ⟨hr0, hr1, hc0, hc1⟩ := inBoundaries_iff.mp h
      have hvne : v ≠ 0 := by simpa using hv
      refine ⟨insertLoop_sorted hs, insertLoop_uniq hs hu, ?_, ?_⟩
      · intro n hn
        rcases insertLoop_mem hn with hn | hn
        · subst hn
          exact hvne
        · exact hz n hn
      · intro n hn
        rcases insertLoop_mem hn with hn | hn
        · subst hn
          exact ⟨hr0, hr1, hc0, hc1⟩
        · exact hb n hn
  · simp only [h, not_false_eq_true, if_true]
    exact ⟨hs, hu, hz, hb⟩

theorem SetElement_countInv_fresh {m : LLSparseMatrix} {row col v : Int}
    (hm : CountInv m) (hfresh : hasCoord m.entries row col = false) :
    CountInv (SetElement m row col v).1 := by
  obtain ⟨hsi, hcount⟩ := hm
  refine ⟨SetElement_storeInv hsi, ?_⟩
  unfold SetElement
  by_cases h : InBoundaries m row col
  · by_cases hv : v == 0
    · simp only [h, not_true_eq_false, if_false, hv, if_true]
      exact hcount
    · simp only [h, not_true_eq_false, if_false, hv, Bool.false_eq_true, if_true]
      rw [insertLoop_length hsi.1, hfresh]
      simp only [if_false, Bool.false_eq_true]
      omega
  · simp only [h, not_false_eq_true, if_true]
    exact hcount

theorem SetElement_count_overwrite {m : LLSparseMatrix} {row col v : Int}
    (hm : StoreInv m) (h : InBoundaries m row col = true) (hv : v ≠ 0)
    (hdup : hasCoord m.entries row col = true) :
    (SetElement m row col v).1.nonZeroElementsCount = m.nonZeroElementsCount + 1 ∧
      (SetElement m row col v).1.entries.length = m.entries.length := by
  rw [SetElement_ok_state h hv]
  refine ⟨rfl, ?_⟩
  simp only
  rw [insertLoop_length hm.1, hdup]
  simp

/-! Lemmas on RemoveElement. -/

theorem removeLoop_eq (row col : Int) (l : List MatrixNode) :
    removeLoop row col l = (l.eraseP (coordMatch row col), l.any (coordMatch row col)) := by
  induction l with
  | nil => rfl
  | cons n rest ih =>
    by_cases h : coordMatch row col n
    · simp [removeLoop, List.eraseP_cons, List.any_cons, h]
    · simp [removeLoop, List.eraseP_cons, List.any_cons, h, ih]

theorem eraseP_coord_none {l : List MatrixNode} (hu : coordUniq l) (row col : Int) :
    (l.eraseP (coordMatch row col)).find? (coordMatch row col) = none := by
  unfold coordUniq at hu
  induction l with
  | nil => rfl
  | cons n rest ih =>
    obtain ⟨hn, hrest⟩ := List.pairwise_cons.mp hu
    by_cases h : coordMatch row col n
    · simp only [List.eraseP_cons, h, cond_true]
      rw [List.find?_eq_none]
      intro x hx hm
      obtain ⟨hr, hc⟩ := coordMatch_iff.mp hm
      obtain ⟨hr0, hc0⟩ := coordMatch_iff.mp h
      exact hn x hx ⟨by rw [hr0, hr], by rw [hc0, hc]⟩
    · simp only [List.eraseP_cons, h, cond_false]
      rw [List.find?_cons_of_neg _ h, ih hrest]

theorem find?_eraseP_other {l : List MatrixNode} {row col r c : Int}
    (hne : ¬ (row = r ∧ col = c)) :
    (l.eraseP (coordMatch row col)).find? (coordMatch r c) = l.find? (coordMatch r c) := by
  induction l with
  | nil => rfl
  | cons n rest ih =>
    by_cases h : coordMatch row col n
    · have hno : coordMatch r c n = false := by
        obtain ⟨hr, hc⟩ := coordMatch_iff.mp h
        simp only [coordMatch, Bool.and_eq_false_iff, beq_eq_false_iff_ne, ne_eq]
        by_cases hrr : n.row = r
        · exact Or.inr (fun hcc => hne ⟨hr ▸ hrr, hc ▸ hcc⟩)
        · exact Or.inl hrr
      simp only [List.eraseP_cons, h, cond_true]
      rw [List.find?_cons_of_neg _ (by simp [hno])]
    · by_cases h2 : coordMatch r c n
      · simp only [List.eraseP_cons, h, cond_false]
        rw [List.find?_cons_of_pos _ h2, List.find?_cons_of_pos _ h2]
      · simp only [List.eraseP_cons, h, cond_false]
        rw [List.find?_cons_of_neg _ h2, List.find?_cons_of_neg _ h2, ih]

theorem RemoveElement_fail {m : LLSparseMatrix} {row col : Int}
    (h : ¬ InBoundaries m row col = true) :
    RemoveElement m row col = ((m, false), some .outOfBounds) := by
  simp [RemoveElement, h]

theorem RemoveElement_ok_state {m : LLSparseMatrix} {row col : Int}
    (h : InBoundaries m row col = true) :
    RemoveElement m row col =
      (({ m with
          entries := m.entries.eraseP (coordMatch row col),
          nonZeroElementsCount :=
            if m.entries.any (coordMatch row col) then m.nonZeroElementsCount - 1
            else m.nonZeroElementsCount },
        m.entries.any (coordMatch row col)), none) := by
  simp [RemoveElement, h, removeLoop_eq]

theorem RemoveElement_storeInv {m : LLSparseMatrix} {row col : Int} (hm : StoreInv m) :
    StoreInv (RemoveElement m row col).1.1 := by
  obtain ⟨hs, hu, hz, hb⟩ := hm
  by_cases h : InBoundaries m row col
  · rw [RemoveElement_ok_state h]
    have hsub := List.eraseP_sublist (p := coordMatch row col) m.entries
    refine ⟨List.Pairwise.sublist hsub hs, List.Pairwise.sublist hsub hu, ?_, ?_⟩
    · intro n hn
      exact hz n (hsub.mem hn)
    · intro n hn
      exact hb n (hsub.mem hn)
  · rw [RemoveElement_fail h]
    exact ⟨hs, hu, hz, hb⟩

theorem RemoveElement_countInv {m : LLSparseMatrix} {row col : Int} (hm : CountInv m) :
    CountInv (RemoveElement m row col).1.1 := by
  obtain ⟨hsi, hcount⟩ := hm
  refine ⟨RemoveElement_storeInv hsi, ?_⟩
  by_cases h : InBoundaries m row col
  · rw [RemoveElement_ok_state h]
    by_cases hfound : m.entries.any (coordMatch row col)
    · obtain ⟨x, hx, hpx⟩ := List.any_eq_true.mp hfound
      have hlen := List.length_eraseP_add_one (p := coordMatch row col) hx hpx
      simp only [hfound, if_true]
      omega
    · have : m.entries.eraseP (coordMatch row col) = m.entries := by
        apply List.eraseP_of_forall_not
        intro x hx
        exact fun hpx => hfound (List.any_eq_true.mpr ⟨x, hx, hpx⟩)
      simp only [hfound, if_false, Bool.false_eq_true, this]
      exact hcount
  · rw [RemoveElement_fail h]
    exact hcount

theorem RemoveElement_elemVal_self {m : LLSparseMatrix} {row col : Int}
    (hm : StoreInv m) (h : InBoundaries m row col = true) :
    elemVal (RemoveElement m row col).1.1 row col = 0 := by
  rw [RemoveElement_ok_state h]
  simp only [elemVal, lookupVal]
  rw [eraseP_coord_none hm.2.1]

theorem RemoveElement_elemVal_other {m : LLSparseMatrix} {row col r c : Int}
    (hne : ¬ (row = r ∧ col = c)) :
    elemVal (RemoveElement m row col).1.1 r c = elemVal m r c := by
  by_cases h : InBoundaries m row col
  · rw [RemoveElement_ok_state h]
    simp only [elemVal, lookupVal]
    rw [find?_eraseP_other hne]
  · rw [RemoveElement_fail h]

/-! Lemmas on Resize. -/

theorem pos_le_pos_of_grow {cc cd r1 c1 r2 c2 : Int}
    (hcc : cc ≤ cd) (hc10 : 0 ≤ c1) (hc11 : c1 < cc) (hc20 : 0 ≤ c2) (hc21 : c2 < cc)
    (h : cc * r1 + c1 ≤ cc * r2 + c2) : cd * r1 + c1 ≤ cd * r2 + c2 := by
  have hcc0 : 0 < cc := by omega
  have hrle : r1 ≤ r2 := by
    by_contra hlt
    push_neg at hlt
    have hstep : cc * (r2 + 1) ≤ cc * r1 :=
      mul_le_mul_of_nonneg_left (by omega) (le_of_lt hcc0)
    nlinarith
  rcases lt_or_eq_of_le hrle with hlt | heq
  · have hcd0 : 0 < cd := by omega
    have hstep : cd * (r1 + 1) ≤ cd * r2 :=
      mul_le_mul_of_nonneg_left (by omega) (le_of_lt hcd0)
    nlinarith
  · subst heq
    omega

theorem Resize_fail {m : LLSparseMatrix} {rows cols : Int}
    (h : rows < m.rowCount ∨ cols < m.colCount) :
    Resize m rows cols = (m, some .invalidResize) := by
  simp [Resize, h]

theorem Resize_ok_state {m : LLSparseMatrix} {rows cols : Int}
    (h : ¬ (rows < m.rowCount ∨ cols < m.colCount)) :
    Resize m rows cols = ({ m with rowCount := rows, colCount := cols }, none) := by
  simp only [Resize, h, if_false]

theorem Resize_entries (m : LLSparseMatrix) (rows cols : Int) :
    (Resize m rows cols).1.entries = m.entries := by
  unfold Resize
  by_cases h : rows < m.rowCount ∨ cols < m.colCount <;> simp [h]

theorem Resize_elemVal (m : LLSparseMatrix) (rows cols r c : Int) :
    elemVal (Resize m rows cols).1 r c = elemVal m r c := by
  simp [elemVal, Resize_entries]

theorem Resize_storeInv {m : LLSparseMatrix} {rows cols : Int} (hm : StoreInv m) :
    StoreInv (Resize m rows cols).1 := by
  obtain ⟨hs, hu, hz, hb⟩ := hm
  by_cases h : rows < m.rowCount ∨ cols < m.colCount
  · rw [Resize_fail h]
    exact ⟨hs, hu, hz, hb⟩
  · rw [Resize_ok_state h]
    push_neg at h
    refine ⟨?_, hu, hz, ?_⟩
    · unfold sortedByPos at hs ⊢
      refine List.Pairwise.imp_of_mem ?_ hs
      intro a b ha hb' hab
      obtain ⟨_, _, hac0, hac1⟩ := hb a ha
      obtain ⟨_, _, hbc0, hbc1⟩ := hb b hb'
      simp only [posOf, GetPosition] at hab ⊢
      exact pos_le_pos_of_grow h.2 hac0 hac1 hbc0 hbc1 hab
    · intro n hn
      obtain ⟨h1, h2, h3, h4⟩ := hb n hn
      exact ⟨h1, show n.row < rows by omega, h3, show n.col < cols by omega⟩

theorem Resize_countInv {m : LLSparseMatrix} {rows cols : Int} (hm : CountInv m) :
    CountInv (Resize m rows cols).1 := by
  refine ⟨Resize_storeInv hm.1, ?_⟩
  unfold Resize
  by_cases h : rows < m.rowCount ∨ cols < m.colCount <;> simp [h, hm.2]

/-! Lemmas on the merge sort of SortByPosition. -/

theorem MergeLists_perm (cc : Int) (l1 l2 : List MatrixNode) :
    (MergeLists cc l1 l2).Perm (l1 ++ l2) := by
  induction l1 generalizing l2 with
  | nil => simp [MergeLists]
  | cons n1 r1 ih1 =>
    induction l2 with
    | nil => simp [MergeLists]
    | cons n2 r2 ih2 =>
      by_cases h : GetPosition cc n1.row n1.col ≤ GetPosition cc n2.row n2.col
      · simp only [MergeLists, h, if_true]
        exact List.Perm.cons n1 (ih1 (n2 :: r2))
      · simp only [MergeLists, h, if_false]
        exact List.Perm.trans (List.Perm.cons n2 ih2) List.perm_middle.symm

theorem MergeLists_sorted {cc : Int} :
    ∀ {l1 l2 : List MatrixNode}, sortedByPos cc l1 → sortedByPos cc l2 →
      sortedByPos cc (MergeLists cc l1 l2) := by
  unfold sortedByPos
  intro l1
  induction l1 with
  | nil =>
    intro l2 h1 h2
    simpa [MergeLists] using h2
  | cons n1 r1 ih1 =>
    intro l2
    induction l2 with
    | nil =>
      intro h1 h2
      simpa [MergeLists] using h1
    | cons n2 r2 ih2 =>
      intro h1 h2
      obtain ⟨hn1, hr1⟩ := List.pairwise_cons.mp h1
      obtain ⟨hn2, hr2⟩ := List.pairwise_cons.mp h2
      by_cases h : GetPosition cc n1.row n1.col ≤ GetPosition cc n2.row n2.col
      · simp only [MergeLists, h, if_true]
        refine List.pairwise_cons.mpr ⟨?_, ih1 hr1 h2⟩
        intro x hx
        rcases List.mem_append.mp ((MergeLists_perm cc r1 (n2 :: r2)).mem_iff.mp hx) with
          hx' | hx'
        · exact hn1 x hx'
        · rcases List.mem_cons.mp hx' with hx'' | hx''
          · subst hx''
            exact h
          · exact le_trans h (hn2 x hx'')
      · simp only [MergeLists, h, if_false]
        refine List.pairwise_cons.mpr ⟨?_, ih2 (List.pairwise_cons.mpr ⟨hn1, hr1⟩) hr2⟩
        intro x hx
        have hlt : GetPosition cc n2.row n2.col ≤ GetPosition cc n1.row n1.col :=
          le_of_not_le h
        rcases List.mem_append.mp
          ((MergeLists_perm cc (n1 :: r1) r2).mem_iff.mp hx) with hx' | hx'
        · rcases List.mem_cons.mp hx' with hx'' | hx''
          · subst hx''
            exact hlt
          · exact le_trans hlt (hn1 x hx'')
        · exact hn2 x hx'

theorem pairwise_of_len_le_one {R : MatrixNode → MatrixNode → Prop}
    {l : List MatrixNode} (h : l.length ≤ 1) : l.Pairwise R := by
  match l with
  | [] => exact List.Pairwise.nil
  | [x] => simp
  | x :: y :: t => simp at h

theorem SortByPosition_perm (cc : Int) (l : List MatrixNode) :
    (SortByPosition cc l).Perm l := by
  generalize hn : l.length = n
  induction n using Nat.strong_induction_on generalizing l with
  | _ n ih =>
    subst hn
    rw [SortByPosition]
    by_cases h : l.length ≤ 1
    · rw [dif_pos h]
    · rw [dif_neg h]
      have ht : (SplitList l).1.length < l.length := by
        simp only [SplitList, List.length_take]
        omega
      have hd : (SplitList l).2.length < l.length := by
        simp only [SplitList, List.length_drop]
        omega
      have p1 := ih _ ht _ rfl
      have p2 := ih _ hd _ rfl
      have hsplit : (SplitList l).1 ++ (SplitList l).2 = l := by
        simp [SplitList, List.take_append_drop]
      refine List.Perm.trans (MergeLists_perm cc _ _) ?_
      refine List.Perm.trans (List.Perm.append p1 p2) ?_
      rw [hsplit]

theorem SortByPosition_sorted (cc : Int) (l : List MatrixNode) :
    sortedByPos cc (SortByPosition cc l) := by
  generalize hn : l.length = n
  induction n using Nat.strong_induction_on generalizing l with
  | _ n ih =>
    subst hn
    rw [SortByPosition]
    by_cases h : l.length ≤ 1
    · rw [dif_pos h]
      exact pairwise_of_len_le_one h
    · rw [dif_neg h]
      have ht : (SplitList l).1.length < l.length := by
        simp only [SplitList, List.length_take]
        omega
      have hd : (SplitList l).2.length < l.length := by
        simp only [SplitList, List.length_drop]
        omega
      exact MergeLists_sorted (ih _ ht _ rfl) (ih _ hd _ rfl)

/-! Lemmas on Transpose. -/

theorem Transpose_entries_perm (m : LLSparseMatrix) :
    (Transpose m).entries.Perm (m.entries.map (fun n => ⟨n.col, n.row, n.value⟩)) :=
  SortByPosition_perm m.rowCount _

theorem coordUniq_swap {l : List MatrixNode} (hu : coordUniq l) :
    coordUniq (l.map (fun n => (⟨n.col, n.row, n.value⟩ : MatrixNode))) := by
  unfold coordUniq at hu ⊢
  rw [List.pairwise_map]
  exact hu.imp (fun h hc => h ⟨hc.2, hc.1⟩)

theorem Transpose_storeInv {m : LLSparseMatrix} (hm : StoreInv m) :
    StoreInv (Transpose m) := by
  obtain ⟨hs, hu, hz, hb⟩ := hm
  have hperm := Transpose_entries_perm m
  refine ⟨?_, ?_, ?_, ?_⟩
  · exact SortByPosition_sorted m.rowCount _
  · exact coordUniq_of_perm hperm.symm (coordUniq_swap hu)
  · intro n hn
    obtain ⟨x, hx, hfx⟩ := List.mem_map.mp (hperm.mem_iff.mp hn)
    have : n.value = x.value := by rw [← hfx]
    rw [this]
    exact hz x hx
  · intro n hn
    obtain ⟨x, hx, hfx⟩ := List.mem_map.mp (hperm.mem_iff.mp hn)
    obtain ⟨h1, h2, h3, h4⟩ := hb x hx
    have hr : n.row = x.col := by rw [← hfx]
    have hc : n.col = x.row := by rw [← hfx]
    rw [hr, hc]
    exact ⟨h3, h4, h1, h2⟩

theorem Transpose_elemVal {m : LLSparseMatrix} (hm : StoreInv m) (i j : Int) :
    elemVal (Transpose m) i j = elemVal m j i := by
  unfold elemVal
  have hperm := (Transpose_entries_perm m).symm
  have hu := coordUniq_swap hm.2.1
  rw [← lookupVal_of_perm hperm hu i j]
  unfold lookupVal
  rw [List.find?_map]
  have hcomp : (coordMatch i j ∘ fun n => (⟨n.col, n.row, n.value⟩ : MatrixNode))
      = coordMatch j i := by
    funext n
    simp [coordMatch, Function.comp, Bool.and_comm]
  rw [hcomp]
  cases hf : m.entries.find? (coordMatch j i) <;> simp [hf]

theorem Transpose_inBoundaries (m : LLSparseMatrix) (i j : Int) :
    InBoundaries (Transpose m) i j = InBoundaries m j i :=
  Bool.and_comm _ _

/-! Lemmas on the dense count of non-zero coordinates. -/

theorem mem_intRange {n k : Int} : k ∈ intRange n ↔ 0 ≤ k ∧ k < n := by
  unfold intRange
  rw [List.mem_map]
  constructor
  · rintro ⟨i, hi, rfl⟩
    rw [List.mem_range] at hi
    omega
  · rintro ⟨h0, h1⟩
    refine ⟨k.toNat, ?_, by omega⟩
    rw [List.mem_range]
    omega

theorem intRange_nodup (n : Int) : (intRange n).Nodup := by
  unfold intRange
  apply List.Nodup.map
  · intro a b h
    simp only at h
    exact Int.natCast_inj.mp h
  · exact List.nodup_range n.toNat

theorem mem_coordGrid {m : LLSparseMatrix} {p : Int × Int} :
    p ∈ coordGrid m ↔
      0 ≤ p.1 ∧ p.1 < m.rowCount ∧ 0 ≤ p.2 ∧ p.2 < m.colCount := by
  simp only [coordGrid, List.mem_flatMap, List.mem_map]
  constructor
  · rintro ⟨i, hi, j, hj, rfl⟩
    obtain ⟨hi0, hi1⟩ := mem_intRange.mp hi
    obtain ⟨hj0, hj1⟩ := mem_intRange.mp hj
    exact ⟨hi0, hi1, hj0, hj1⟩
  · rintro ⟨h1, h2, h3, h4⟩
    exact ⟨p.1, mem_intRange.mpr ⟨h1, h2⟩, p.2, mem_intRange.mpr ⟨h3, h4⟩, Prod.mk.eta⟩

theorem coordGrid_nodup (m : LLSparseMatrix) : (coordGrid m).Nodup := by
  unfold coordGrid
  rw [List.nodup_flatMap]
  constructor
  · intro i _
    refine List.Nodup.map ?_ (intRange_nodup m.colCount)
    intro a b h
    exact (Prod.mk.injEq _ _ _ _ ▸ h).2
  · have h := intRange_nodup m.rowCount
    unfold List.Nodup at h
    refine h.imp ?_
    intro a b hne
    intro x hxa hxb
    obtain ⟨j1, _, hj1⟩ := List.mem_map.mp hxa
    obtain ⟨j2, _, hj2⟩ := List.mem_map.mp hxb
    apply hne
    have h1 : x.1 = a := by rw [← hj1]
    have h2 : x.1 = b := by rw [← hj2]
    rw [← h1, h2]

theorem coords_nodup {l : List MatrixNode} (hu : coordUniq l) :
    (l.map (fun n => (n.row, n.col))).Nodup := by
  unfold coordUniq at hu
  unfold List.Nodup
  rw [List.pairwise_map]
  refine hu.imp ?_
  intro a b h heq
  exact h ⟨(Prod.mk.injEq _ _ _ _ ▸ heq).1, (Prod.mk.injEq _ _ _ _ ▸ heq).2⟩

theorem nonzeroCoordCount_eq_length {m : LLSparseMatrix} (hm : StoreInv m) :
    nonzeroCoordCount m = m.entries.length := by
  obtain ⟨hs, hu, hz, hb⟩ := hm
  unfold nonzeroCoordCount
  rw [List.countP_eq_length_filter]
  have hmem : ∀ p : Int × Int,
      p ∈ (coordGrid m).filter (fun p => elemVal m p.1 p.2 != 0) ↔
        p ∈ m.entries.map (fun n => (n.row, n.col)) := by
    intro p
    rw [List.mem_filter]
    constructor
    · rintro ⟨hg, hp⟩
      have hne : elemVal m p.1 p.2 ≠ 0 := bne_iff_ne.mp hp
      have hc := (lookupVal_ne_zero_iff hz p.1 p.2).mp hne
      obtain ⟨n, hn, hmn⟩ := List.any_eq_true.mp hc
      obtain ⟨hr, hcc⟩ := coordMatch_iff.mp hmn
      refine List.mem_map.mpr ⟨n, hn, ?_⟩
      rw [hr, hcc]
    · intro hp
      obtain ⟨n, hn, hfn⟩ := List.mem_map.mp hp
      obtain ⟨h1, h2, h3, h4⟩ := hb n hn
      have hr : n.row = p.1 := by rw [← hfn]
      have hcc : n.col = p.2 := by rw [← hfn]
      constructor
      · apply mem_coordGrid.mpr
        rw [← hr, ← hcc]
        exact ⟨h1, h2, h3, h4⟩
      · refine bne_iff_ne.mpr ?_
        apply (lookupVal_ne_zero_iff hz p.1 p.2).mpr
        exact List.any_eq_true.mpr ⟨n, hn, coordMatch_iff.mpr ⟨hr, hcc⟩⟩
  have hperm := (List.perm_ext_iff_of_nodup
    (List.Nodup.filter _ (coordGrid_nodup m)) (coords_nodup hu)).mpr hmem
  rw [hperm.length_eq, List.length_map]

/-! Lemmas on the accumulator map of the multiplication loop. -/

theorem mapGet_nil (k : Int × Int) : mapGet [] k = 0 := rfl

theorem mapGet_cons (e : (Int × Int) × Int) (rest : AccMap) (k : Int × Int) :
    mapGet (e :: rest) k = if e.1 = k then e.2 else mapGet rest k := by
  unfold mapGet
  rw [List.find?_cons]
  by_cases h : e.1 = k
  · rw [if_pos h]
    have hb : (e.1 == k) = true := beq_iff_eq.mpr h
    simp [hb]
  · rw [if_neg h]
    have hb : (e.1 == k) = false := by
      simpa using h
    simp [hb]

theorem mapGet_cons2 (a : Int × Int) (b : Int) (rest : AccMap) (k : Int × Int) :
    mapGet ((a, b) :: rest) k = if a = k then b else mapGet rest k :=
  mapGet_cons (a, b) rest k

theorem mapGet_eq_zero_of_forall_ne {acc : AccMap} {k : Int × Int}
    (h : ∀ e ∈ acc, ¬ e.1 = k) : mapGet acc k = 0 := by
  unfold mapGet
  rw [List.find?_eq_none.mpr (fun e he hc => h e he (beq_iff_eq.mp hc))]

theorem keyLt_iff {a b : Int × Int} :
    keyLt a b = true ↔ a.1 < b.1 ∨ (a.1 = b.1 ∧ a.2 < b.2) := by
  simp [keyLt]

theorem mapAdd_key_mem {acc : AccMap} {k : Int × Int} {v : Int} {x : (Int × Int) × Int}
    (hx : x ∈ mapAdd k v acc) : x.1 = k ∨ x.1 ∈ acc.map (fun e => e.1) := by
  induction acc with
  | nil =>
    simp only [mapAdd, List.mem_singleton] at hx
    subst hx
    exact Or.inl rfl
  | cons e rest ih =>
    simp only [mapAdd, Prod.mk.eta] at hx
    by_cases h1 : k == e.1
    · simp only [h1, if_true, List.mem_cons] at hx
      rcases hx with hx | hx
      · refine Or.inr (List.mem_map.mpr ⟨e, List.mem_cons_self _ _, ?_⟩)
        rw [hx]
      · exact Or.inr (List.mem_map.mpr ⟨x, List.mem_cons_of_mem _ hx, rfl⟩)
    · by_cases h2 : keyLt k e.1
      · simp only [h1, Bool.false_eq_true, if_false, h2, if_true, List.mem_cons] at hx
        rcases hx with hx | hx | hx
        · exact Or.inl (by rw [hx])
        · exact Or.inr (List.mem_map.mpr ⟨e, List.mem_cons_self _ _, by rw [hx]⟩)
        · exact Or.inr (List.mem_map.mpr ⟨x, List.mem_cons_of_mem _ hx, rfl⟩)
      · simp only [h1, Bool.false_eq_true, if_false, h2, if_false, List.mem_cons] at hx
        rcases hx with hx | hx
        · exact Or.inr (List.mem_map.mpr ⟨e, List.mem_cons_self _ _, by rw [hx]⟩)
        · rcases ih hx with h | h
          · exact Or.inl h
          · obtain ⟨y, hy, hyy⟩ := List.mem_map.mp h
            exact Or.inr (List.mem_map.mpr ⟨y, List.mem_cons_of_mem _ hy, hyy⟩)

theorem mapAdd_strictSorted {acc : AccMap} {k : Int × Int} {v : Int}
    (hs : acc.Pairwise (fun e e' => keyLt e.1 e'.1 = true)) :
    (mapAdd k v acc).Pairwise (fun e e' => keyLt e.1 e'.1 = true) := by
  induction acc with
  | nil => simp [mapAdd]
  | cons e rest ih =>
    obtain ⟨he, hrest⟩ := List.pairwise_cons.mp hs
    simp only [mapAdd, Prod.mk.eta]
    by_cases h1 : k == e.1
    · simp only [h1, if_true]
      exact List.pairwise_cons.mpr ⟨fun x hx => he x hx, hrest⟩
    · by_cases h2 : keyLt k e.1
      · simp only [h1, Bool.false_eq_true, if_false, h2, if_true]
        refine List.pairwise_cons.mpr ⟨?_, hs⟩
        intro x hx
        show keyLt k x.1 = true
        rcases List.mem_cons.mp hx with hx | hx
        · subst hx
          exact h2
        · have h3 := he x hx
          rw [keyLt_iff] at h2 h3 ⊢
          omega
      · simp only [h1, Bool.false_eq_true, if_false, h2, if_false]
        refine List.pairwise_cons.mpr ⟨?_, ih hrest⟩
        intro x hx
        show keyLt e.1 x.1 = true
        rcases mapAdd_key_mem hx with hx' | hx'
        · rw [hx']
          have hne : ¬ (k.1 = e.1.1 ∧ k.2 = e.1.2) := by
            intro hh
            exact h1 (beq_iff_eq.mpr (Prod.ext hh.1 hh.2))
          have h2' : ¬ (k.1 < e.1.1 ∨ (k.1 = e.1.1 ∧ k.2 < e.1.2)) :=
            fun hh => h2 (keyLt_iff.mpr hh)
          rw [keyLt_iff]
          omega
        · obtain ⟨y, hy, hyy⟩ := List.mem_map.mp hx'
          exact hyy ▸ he y hy

theorem mapGet_mapAdd {acc : AccMap}
    (hs : acc.Pairwise (fun e e' => keyLt e.1 e'.1 = true))
    (k : Int × Int) (v : Int) (k' : Int × Int) :
    mapGet (mapAdd k v acc) k' =
      if k' = k then mapGet acc k' + v else mapGet acc k' := by
  induction acc with
  | nil =>
    by_cases h : k' = k
    · rw [if_pos h, mapGet_nil]
      simp only [mapAdd]
      rw [mapGet_cons2, if_pos h.symm]
      omega
    · rw [if_neg h]
      simp only [mapAdd]
      rw [mapGet_cons2, if_neg (fun hh => h hh.symm), mapGet_nil]
  | cons e rest ih =>
    obtain ⟨he, hrest⟩ := List.pairwise_cons.mp hs
    simp only [mapAdd, Prod.mk.eta]
    by_cases h1 : k == e.1
    · have hk : k = e.1 := beq_iff_eq.mp h1
      simp only [h1, if_true]
      rw [mapGet_cons2, mapGet_cons]
      by_cases h2 : e.1 = k'
      · have h3 : k' = k := by rw [hk, h2]
        rw [if_pos h2, if_pos h3, if_pos h2]
      · have h3 : ¬ k' = k := fun hh => h2 (by rw [← hk]; exact hh.symm)
        rw [if_neg h2, if_neg h3, if_neg h2]
    · by_cases h2 : keyLt k e.1
      · simp only [h1, Bool.false_eq_true, if_false, h2, if_true]
        rw [mapGet_cons2]
        by_cases h3 : k = k'
        · have hz : mapGet (e :: rest) k' = 0 := by
            apply mapGet_eq_zero_of_forall_ne
            intro x hx hxe
            rcases List.mem_cons.mp hx with hx' | hx'
            · rw [keyLt_iff] at h2
              rw [hx'] at hxe
              rw [hxe, ← h3] at h2
              omega
            · have h4 := he x hx'
              rw [keyLt_iff] at h2 h4
              rw [hxe, ← h3] at h4
              omega
          rw [if_pos h3, if_pos h3.symm, hz]
          omega
        · rw [if_neg h3, if_neg (fun hh => h3 hh.symm)]
      · simp only [h1, Bool.false_eq_true, if_false, h2, if_false]
        rw [mapGet_cons, mapGet_cons, ih hrest]
        by_cases h4 : e.1 = k'
        · have h5 : ¬ k' = k := by
            intro hh
            have hne : ¬ (k.1 = e.1.1 ∧ k.2 = e.1.2) := by
              intro hc
              exact h1 (beq_iff_eq.mpr (Prod.ext hc.1 hc.2))
            rw [← hh, h4] at hne
            exact hne ⟨rfl, rfl⟩
          rw [if_pos h4, if_pos h4, if_neg h5]
        · rw [if_neg h4, if_neg h4]

/-! Lemmas relating the multiplication loop to its flat event list. -/

theorem mulLoop_eq_foldl (bEnt : List MatrixNode) (aEnt : List MatrixNode) (acc : AccMap) :
    mulLoop bEnt aEnt acc =
      (events aEnt bEnt).foldl (fun a e => mapAdd e.1 e.2 a) acc := by
  induction aEnt generalizing acc with
  | nil => simp [mulLoop, events]
  | cons a rest ih =>
    simp only [mulLoop, events, List.flatMap_cons, List.foldl_append]
    rw [ih, List.foldl_map]
    rfl

theorem foldl_mapAdd_strictSorted (evs : AccMap) : ∀ {acc : AccMap},
    acc.Pairwise (fun e e' => keyLt e.1 e'.1 = true) →
    (evs.foldl (fun a e => mapAdd e.1 e.2 a) acc).Pairwise
      (fun e e' => keyLt e.1 e'.1 = true) := by
  induction evs with
  | nil =>
    intro acc h
    exact h
  | cons e rest ih =>
    intro acc h
    exact ih (mapAdd_strictSorted h)

theorem foldl_mapAdd_key_mem (evs : AccMap) : ∀ {acc : AccMap}
    {x : (Int × Int) × Int}, x ∈ evs.foldl (fun a e => mapAdd e.1 e.2 a) acc →
    x.1 ∈ acc.map (fun e => e.1) ∨ ∃ e ∈ evs, x.1 = e.1 := by
  induction evs with
  | nil =>
    intro acc x hx
    exact Or.inl (List.mem_map.mpr ⟨x, hx, rfl⟩)
  | cons e rest ih =>
    intro acc x hx
    rcases ih hx with h | h
    · obtain ⟨y, hy, hyy⟩ := List.mem_map.mp h
      rcases mapAdd_key_mem hy with h' | h'
      · exact Or.inr ⟨e, List.mem_cons_self _ _, by rw [← hyy, h']⟩
      · exact Or.inl (by rw [← hyy]; exact h')
    · obtain ⟨e', he', hee⟩ := h
      exact Or.inr ⟨e', List.mem_cons_of_mem _ he', hee⟩

theorem mapGet_foldl (evs : AccMap) : ∀ (acc : AccMap),
    acc.Pairwise (fun e e' => keyLt e.1 e'.1 = true) → ∀ (k : Int × Int),
    mapGet (evs.foldl (fun a e => mapAdd e.1 e.2 a) acc) k
      = mapGet acc k + keySum evs k := by
  induction evs with
  | nil =>
    intro acc _ k
    simp [keySum]
  | cons e rest ih =>
    intro acc hacc k
    simp only [List.foldl_cons]
    rw [ih _ (mapAdd_strictSorted hacc) k, mapGet_mapAdd hacc]
    unfold keySum
    by_cases h : k = e.1
    · rw [if_pos h]
      simp only [List.filter_cons]
      have hb : (e.1 == k) = true := beq_iff_eq.mpr h.symm
      simp only [hb, if_true, List.map_cons, List.sum_cons]
      omega
    · rw [if_neg h]
      simp only [List.filter_cons]
      have hb : (e.1 == k) = false := by
        simpa using fun hh => h hh.symm
      simp only [hb, Bool.false_eq_true, if_false]

theorem keySum_append (xs ys : AccMap) (k : Int × Int) :
    keySum (xs ++ ys) k = keySum xs k + keySum ys k := by
  unfold keySum
  rw [List.filter_append, List.map_append, List.sum_append]

/-! Lemmas on the row scan of the multiplication loop. -/

theorem rows_mono_of_sorted {cc : Int} {l : List MatrixNode}
    (hs : sortedByPos cc l) (hbc : ∀ n ∈ l, 0 ≤ n.col ∧ n.col < cc) :
    l.Pairwise (fun a b => a.row ≤ b.row) := by
  unfold sortedByPos at hs
  refine List.Pairwise.imp_of_mem ?_ hs
  intro a b ha hb h
  obtain ⟨ha0, ha1⟩ := hbc a ha
  obtain ⟨hb0, hb1⟩ := hbc b hb
  simp only [posOf, GetPosition] at h
  by_contra hlt
  push_neg at hlt
  have hcc0 : 0 < cc := by omega
  have hstep : cc * (b.row + 1) ≤ cc * a.row :=
    mul_le_mul_of_nonneg_left (by omega) (le_of_lt hcc0)
  nlinarith

theorem takeWhile_row_eq_filter {k : Int} : ∀ {l : List MatrixNode},
    l.Pairwise (fun a b => a.row ≤ b.row) → (∀ x ∈ l, k ≤ x.row) →
    l.takeWhile (fun n => n.row == k) = l.filter (fun n => n.row == k) := by
  intro l
  induction l with
  | nil =>
    intro _ _
    rfl
  | cons b t ih =>
    intro hmono hge
    obtain ⟨hb, ht⟩ := List.pairwise_cons.mp hmono
    rw [List.takeWhile_cons, List.filter_cons]
    by_cases h : (b.row == k) = true
    · rw [if_pos h, if_pos h, ih ht (fun x hx => hge x (List.mem_cons_of_mem _ hx))]
    · rw [if_neg h, if_neg (by simpa using h)]
      have hbk : k < b.row := by
        have h1 := hge b (List.mem_cons_self _ _)
        have h2 : ¬ b.row = k := by simpa using h
        omega
      have : t.filter (fun n => n.row == k) = [] := by
        rw [List.filter_eq_nil_iff]
        intro x hx hmx
        have h3 := hb x hx
        have h4 : x.row = k := by simpa using hmx
        omega
      rw [this]

theorem runOf_eq_filter {k : Int} : ∀ {l : List MatrixNode},
    l.Pairwise (fun a b => a.row ≤ b.row) →
    runOf l k = l.filter (fun n => n.row == k) := by
  intro l
  induction l with
  | nil =>
    intro _
    rfl
  | cons b t ih =>
    intro hmono
    obtain ⟨hb, ht⟩ := List.pairwise_cons.mp hmono
    unfold runOf
    rw [List.dropWhile_cons]
    by_cases h : (b.row == k) = true
    · have hne : (b.row != k) = false := by
        simp only [bne_eq_false_iff_eq]
        simpa using h
      rw [if_neg (by simp [hne]), List.takeWhile_cons, if_pos h, List.filter_cons,
        if_pos h]
      have hbk : b.row = k := by simpa using h
      rw [takeWhile_row_eq_filter ht]
      intro x hx
      have := hb x hx
      omega
    · have hne : (b.row != k) = true := by
        simp only [bne_iff_ne, ne_eq]
        simpa using h
      rw [if_pos hne, List.filter_cons, if_neg (by simpa using h)]
      exact ih ht

/-! Summation algebra used to relate the accumulator to the dot product. -/

theorem sum_map_add {α : Type} (l : List α) (f g : α → Int) :
    (l.map (fun x => f x + g x)).sum = (l.map f).sum + (l.map g).sum := by
  induction l with
  | nil => simp
  | cons a t ih =>
    simp only [List.map_cons, List.sum_cons, ih]
    omega

theorem sum_swap {α β : Type} (K : List α) (L : List β) (F : α → β → Int) :
    (K.map (fun k => (L.map (F k)).sum)).sum
      = (L.map (fun x => (K.map (fun k => F k x)).sum)).sum := by
  induction K with
  | nil => simp
  | cons k K' ih =>
    simp only [List.map_cons, List.sum_cons]
    rw [ih, ← sum_map_add]

theorem sum_if_eq {K : List Int} (f : Int → Int) : ∀ {x : Int}, K.Nodup → x ∈ K →
    (K.map (fun k => if k = x then f k else 0)).sum = f x := by
  induction K with
  | nil =>
    intro x _ hx
    simp at hx
  | cons a t ih =>
    intro x hnd hx
    obtain ⟨hna, hnt⟩ := List.nodup_cons.mp hnd
    simp only [List.map_cons, List.sum_cons]
    rcases List.mem_cons.mp hx with h | h
    · subst h
      rw [if_pos rfl]
      have hz : (t.map (fun k => if k = x then f k else 0)).sum = 0 := by
        apply List.sum_eq_zero
        intro y hy
        obtain ⟨kk, hkk, hkv⟩ := List.mem_map.mp hy
        rw [← hkv, if_neg (show ¬ kk = x by intro hh; rw [hh] at hkk; exact hna hkk)]
      rw [hz]
      omega
    · rw [if_neg (show ¬ a = x by intro hh; rw [← hh] at h; exact hna h), ih hnt h]
      omega

theorem sum_filter_if (p : MatrixNode → Bool) (f : MatrixNode → Int) (l : List MatrixNode) :
    ((l.filter p).map f).sum = (l.map (fun x => if p x then f x else 0)).sum := by
  induction l with
  | nil => rfl
  | cons a t ih =>
    rw [List.filter_cons]
    by_cases h : p a
    · simp only [h, if_true, List.map_cons, List.sum_cons, ih]
    · simp only [h, Bool.false_eq_true, if_false, List.map_cons, List.sum_cons, ih]
      omega

theorem filter_coord_sum {l : List MatrixNode} (hu : coordUniq l) (r c : Int) :
    ((l.filter (coordMatch r c)).map (fun n => n.value)).sum = lookupVal l r c := by
  unfold coordUniq at hu
  induction l with
  | nil => rfl
  | cons n rest ih =>
    obtain ⟨hn, hrest⟩ := List.pairwise_cons.mp hu
    rw [List.filter_cons]
    by_cases h : coordMatch r c n
    · rw [if_pos h]
      obtain ⟨hr, hc⟩ := coordMatch_iff.mp h
      have hnil : rest.filter (coordMatch r c) = [] := by
        rw [List.filter_eq_nil_iff]
        intro x hx hmx
        obtain ⟨hxr, hxc⟩ := coordMatch_iff.mp hmx
        exact hn x hx ⟨by rw [hr, hxr], by rw [hc, hxc]⟩
      rw [hnil]
      unfold lookupVal
      rw [List.find?_cons_of_pos _ h]
      simp
    · rw [if_neg h]
      unfold lookupVal
      rw [List.find?_cons_of_neg _ h]
      have h2 := ih hrest
      unfold lookupVal at h2
      exact h2

/-! The per-entry contribution of the multiplication loop. -/

theorem events_cons (a : MatrixNode) (rest bEnt : List MatrixNode) :
    events (a :: rest) bEnt =
      ((runOf bEnt a.col).map (fun b => ((a.row, b.col), a.value * b.value)))
        ++ events rest bEnt := by
  simp [events]

theorem keySum_run {bEnt : List MatrixNode}
    (hmono : bEnt.Pairwise (fun a b => a.row ≤ b.row)) (hu : coordUniq bEnt)
    (a : MatrixNode) (i j : Int) :
    keySum ((runOf bEnt a.col).map (fun b => ((a.row, b.col), a.value * b.value))) (i, j)
      = if a.row = i then a.value * lookupVal bEnt a.col j else 0 := by
  rw [runOf_eq_filter hmono]
  unfold keySum
  rw [List.filter_map]
  by_cases hi : a.row = i
  · rw [if_pos hi]
    have hpred : ((fun e : (Int × Int) × Int => e.1 == (i, j)) ∘
        fun b : MatrixNode => ((a.row, b.col), a.value * b.value))
        = fun b : MatrixNode => b.col == j := by
      funext b
      simp [Function.comp, hi, Prod.ext_iff]
    rw [hpred, List.map_map, List.filter_filter]
    have hpred2 : (fun b : MatrixNode => (b.col == j) && (b.row == a.col))
        = coordMatch a.col j := by
      funext b
      simp [coordMatch, Bool.and_comm]
    rw [hpred2]
    have hmapped : ((fun e : (Int × Int) × Int => e.2) ∘
        fun b : MatrixNode => ((a.row, b.col), a.value * b.value))
        = fun b : MatrixNode => a.value * b.value := by
      funext b
      rfl
    rw [hmapped, ← filter_coord_sum hu a.col j, ← List.sum_map_mul_left]
  · rw [if_neg hi]
    have hpred : ((fun e : (Int × Int) × Int => e.1 == (i, j)) ∘
        fun b : MatrixNode => ((a.row, b.col), a.value * b.value))
        = fun _ : MatrixNode => false := by
      funext b
      simp [Function.comp, Prod.ext_iff, hi]
    rw [hpred]
    simp

theorem keySum_events (aEnt : List MatrixNode) {bEnt : List MatrixNode}
    (hmono : bEnt.Pairwise (fun a b => a.row ≤ b.row)) (hu : coordUniq bEnt) (i j : Int) :
    keySum (events aEnt bEnt) (i, j)
      = (aEnt.map
          (fun a => if a.row = i then a.value * lookupVal bEnt a.col j else 0)).sum := by
  induction aEnt with
  | nil => simp [events, keySum]
  | cons a rest ih =>
    rw [events_cons, keySum_append, keySum_run hmono hu a i j, ih]
    simp

theorem dotSum_eq_contribs {A B : LLSparseMatrix} (hA : StoreInv A) (i j : Int) :
    dotSum A B i j
      = (A.entries.map
          (fun a => if a.row = i then a.value * lookupVal B.entries a.col j else 0)).sum := by
  obtain ⟨hsA, huA, hzA, hbA⟩ := hA
  unfold dotSum
  have h1 : ∀ k : Int, elemVal A i k * elemVal B k j
      = ((A.entries.filter (coordMatch i k)).map
          (fun n => n.value * lookupVal B.entries k j)).sum := by
    intro k
    rw [show elemVal A i k = ((A.entries.filter (coordMatch i k)).map
        (fun n => n.value)).sum from (filter_coord_sum huA i k).symm]
    rw [List.sum_map_mul_right]
    rfl
  have hstep : (intRange A.colCount).map (fun k => elemVal A i k * elemVal B k j)
      = (intRange A.colCount).map (fun k =>
          (A.entries.map (fun n =>
            if coordMatch i k n then n.value * lookupVal B.entries k j else 0)).sum) := by
    apply List.map_congr_left
    intro k _
    rw [h1 k, sum_filter_if]
  rw [hstep,
    sum_swap (intRange A.colCount) A.entries
      (fun k n => if coordMatch i k n then n.value * lookupVal B.entries k j else 0)]
  apply congrArg
  apply List.map_congr_left
  intro n hn
  obtain ⟨hr0, hr1, hc0, hc1⟩ := hbA n hn
  by_cases hrow : n.row = i
  · rw [if_pos hrow]
    have hpt : ∀ k : Int,
        (if coordMatch i k n then n.value * lookupVal B.entries k j else 0)
          = (if k = n.col then n.value * lookupVal B.entries k j else 0) := by
      intro k
      by_cases hk : k = n.col
      · rw [if_pos hk, if_pos (coordMatch_iff.mpr ⟨hrow, hk.symm⟩)]
      · rw [if_neg hk, if_neg (fun hc => hk ((coordMatch_iff.mp hc).2.symm))]
    simp only [hpt]
    exact sum_if_eq _ (intRange_nodup _) (mem_intRange.mpr ⟨hc0, hc1⟩)
  · rw [if_neg hrow]
    apply List.sum_eq_zero
    intro y hy
    obtain ⟨k, _, hkv⟩ := List.mem_map.mp hy
    rw [← hkv, if_neg (fun hc => hrow (coordMatch_iff.mp hc).1)]

/-! Lemmas on the writeback loop of Multiply. -/

theorem writeMap_nil (m : LLSparseMatrix) : writeMap [] m = .ok m := rfl

theorem writeMap_cons (e : (Int × Int) × Int) (rest : AccMap) (m : LLSparseMatrix) :
    writeMap (e :: rest) m
      = (setElementE m e.1.1 e.1.2 e.2).bind (fun m2 => writeMap rest m2) := by
  rfl

theorem setElementE_ok {m : LLSparseMatrix} {r c v : Int}
    (h : InBoundaries m r c = true) :
    setElementE m r c v = .ok (SetElement m r c v).1 := by
  have h2 := SetElement_err m r c v
  rw [if_pos h] at h2
  unfold setElementE
  rcases hSE : SetElement m r c v with ⟨m2, err⟩
  rw [hSE] at h2
  simp only at h2
  subst h2
  rfl

theorem inBoundaries_setElement (m : LLSparseMatrix) (row col v r c : Int) :
    InBoundaries (SetElement m row col v).1 r c = InBoundaries m r c := by
  unfold InBoundaries
  rw [(SetElement_extents m row col v).1, (SetElement_extents m row col v).2]

theorem writeMap_go : ∀ (acc : AccMap) (m : LLSparseMatrix),
    StoreInv m →
    (acc.map (fun e => e.1)).Nodup →
    (∀ e ∈ acc, InBoundaries m e.1.1 e.1.2 = true) →
    (∀ e ∈ acc, elemVal m e.1.1 e.1.2 = 0) →
    ∃ C, writeMap acc m = .ok C ∧ StoreInv C ∧ C.rowCount = m.rowCount ∧
      C.colCount = m.colCount ∧
      ∀ i j : Int, elemVal C i j = elemVal m i j + mapGet acc (i, j) := by
  intro acc
  induction acc with
  | nil =>
    intro m hm _ _ _
    exact ⟨m, rfl, hm, rfl, rfl, fun i j => by rw [mapGet_nil]; omega⟩
  | cons e rest ih =>
    intro m hm hnd hbounds hzero
    have hndc : e.1 ∉ rest.map (fun e => e.1) ∧ (rest.map (fun e => e.1)).Nodup := by
      have := hnd
      rw [List.map_cons, List.nodup_cons] at this
      exact this
    have hbe := hbounds e (List.mem_cons_self _ _)
    have hm2inv : StoreInv (SetElement m e.1.1 e.1.2 e.2).1 :=
      SetElement_storeInv hm
    have hext := SetElement_extents m e.1.1 e.1.2 e.2
    have hrestkeys : ∀ e' ∈ rest, ¬ e'.1 = e.1 := by
      intro e' he' hh
      exact hndc.1 (List.mem_map.mpr ⟨e', he', hh⟩)
    have hval_other : ∀ r c : Int, ¬ (e.1.1 = r ∧ e.1.2 = c) →
        elemVal (SetElement m e.1.1 e.1.2 e.2).1 r c = elemVal m r c := by
      intro r c hne
      exact SetElement_elemVal_other hne
    have hval_self : elemVal (SetElement m e.1.1 e.1.2 e.2).1 e.1.1 e.1.2 = e.2 := by
      by_cases hv : e.2 = 0
      · have hz0 : SetElement m e.1.1 e.1.2 0 = (m, none) := SetElement_zero hbe
        rw [hv, hz0]
        exact hzero e (List.mem_cons_self _ _)
      · exact SetElement_elemVal_self hbe hv
    obtain ⟨C, hC, hCinv, hCr, hCc, hCval⟩ :=
      ih (SetElement m e.1.1 e.1.2 e.2).1 hm2inv hndc.2
        (fun e' he' => by
          rw [inBoundaries_setElement]
          exact hbounds e' (List.mem_cons_of_mem _ he'))
        (fun e' he' => by
          have hne : ¬ (e.1.1 = e'.1.1 ∧ e.1.2 = e'.1.2) := by
            intro hh
            exact hrestkeys e' he' (Prod.ext hh.1.symm hh.2.symm)
          rw [hval_other _ _ hne]
          exact hzero e' (List.mem_cons_of_mem _ he'))
    refine ⟨C, ?_, hCinv, by rw [hCr, hext.1], by rw [hCc, hext.2], ?_⟩
    · rw [writeMap_cons, setElementE_ok hbe]
      exact hC
    · intro i j
      rw [hCval i j, mapGet_cons]
      by_cases he : e.1 = (i, j)
      · have hij : e.1.1 = i ∧ e.1.2 = j := by
          rw [he]
          exact ⟨rfl, rfl⟩
        have hz : mapGet rest (i, j) = 0 := by
          apply mapGet_eq_zero_of_forall_ne
          intro e' he'
          rw [← he]
          exact hrestkeys e' he'
        rw [if_pos he, hz, ← hij.1, ← hij.2, hval_self]
        rw [hzero e (List.mem_cons_self _ _)]
        omega
      · have hne : ¬ (e.1.1 = i ∧ e.1.2 = j) := by
          intro hh
          exact he (Prod.ext hh.1 hh.2)
        rw [if_neg he, hval_other _ _ hne]

/-! Assembly lemmas for Multiply. -/

theorem make_storeInv (r c : Int) : StoreInv (LLSparseMatrix.make r c) := by
  refine ⟨?_, ?_, ?_, ?_⟩ <;>
    simp [sortedByPos, coordUniq, LLSparseMatrix.make]

theorem strictSorted_keys_nodup {acc : AccMap}
    (hs : acc.Pairwise (fun e e' => keyLt e.1 e'.1 = true)) :
    (acc.map (fun e => e.1)).Nodup := by
  unfold List.Nodup
  rw [List.pairwise_map]
  refine hs.imp ?_
  intro a b h heq
  rw [keyLt_iff, heq] at h
  omega

theorem events_mem {aEnt bEnt : List MatrixNode} {e : (Int × Int) × Int}
    (he : e ∈ events aEnt bEnt) :
    ∃ a ∈ aEnt, ∃ b ∈ bEnt, e = ((a.row, b.col), a.value * b.value) := by
  unfold events at he
  obtain ⟨a, ha, hb⟩ := List.mem_flatMap.mp he
  obtain ⟨b, hbr, hbe⟩ := List.mem_map.mp hb
  unfold runOf at hbr
  have hbb : b ∈ bEnt :=
    (List.dropWhile_sublist _).mem ((List.takeWhile_sublist _).mem hbr)
  exact ⟨a, ha, b, hbb, hbe.symm⟩

theorem dotSum_zero_left {A B : LLSparseMatrix} (h : A.entries = []) (i j : Int) :
    dotSum A B i j = 0 := by
  unfold dotSum
  apply List.sum_eq_zero
  intro y hy
  obtain ⟨k, _, hk⟩ := List.mem_map.mp hy
  rw [← hk]
  simp [elemVal, lookupVal, h]

theorem dotSum_zero_right {A B : LLSparseMatrix} (h : B.entries = []) (i j : Int) :
    dotSum A B i j = 0 := by
  unfold dotSum
  apply List.sum_eq_zero
  intro y hy
  obtain ⟨k, _, hk⟩ := List.mem_map.mp hy
  rw [← hk]
  simp [elemVal, lookupVal, h]

theorem Multiply_dim_error {A B : LLSparseMatrix} (h : ¬ A.colCount = B.rowCount) :
    Multiply A B = .error .dimensionMismatch := by
  simp [Multiply, h]

theorem Multiply_ok {A B : LLSparseMatrix} (hA : StoreInv A) (hB : StoreInv B)
    (hdim : A.colCount = B.rowCount) :
    ∃ C, Multiply A B = .ok C ∧ StoreInv C ∧ C.rowCount = A.rowCount ∧
      C.colCount = B.colCount ∧ ∀ i j : Int, elemVal C i j = dotSum A B i j := by
  unfold Multiply
  rw [if_neg (by simpa using hdim)]
  by_cases hemp : (A.entries.isEmpty || B.entries.isEmpty) = true
  · rw [if_pos hemp]
    refine ⟨_, rfl, make_storeInv _ _, rfl, rfl, ?_⟩
    intro i j
    have hz : elemVal (LLSparseMatrix.make A.rowCount B.colCount) i j = 0 := rfl
    rw [hz]
    rcases Bool.or_eq_true_iff.mp hemp with h | h
    · rw [dotSum_zero_left (List.isEmpty_iff.mp h)]
    · rw [dotSum_zero_right (List.isEmpty_iff.mp h)]
  · rw [if_neg hemp]
    obtain ⟨hsB, huB, hzB, hbB⟩ := hB
    have hmono := rows_mono_of_sorted hsB
      (fun n hn => ⟨(hbB n hn).2.2.1, (hbB n hn).2.2.2⟩)
    have hloop := mulLoop_eq_foldl B.entries A.entries []
    have hsorted : (mulLoop B.entries A.entries []).Pairwise
        (fun e e' => keyLt e.1 e'.1 = true) := by
      rw [hloop]
      exact foldl_mapAdd_strictSorted _ List.Pairwise.nil
    have hkeys_from_events : ∀ e ∈ mulLoop B.entries A.entries [],
        ∃ ev ∈ events A.entries B.entries, e.1 = ev.1 := by
      intro e he
      rw [hloop] at he
      rcases foldl_mapAdd_key_mem _ he with h | h
      · simp at h
      · exact h
    obtain ⟨C, hC, hCinv, hCr, hCc, hCval⟩ :=
      writeMap_go (mulLoop B.entries A.entries [])
        (LLSparseMatrix.make A.rowCount B.colCount)
        (make_storeInv _ _)
        (strictSorted_keys_nodup hsorted)
        (fun e he => by
          obtain ⟨ev, hev, heq⟩ := hkeys_from_events e he
          obtain ⟨a, ha, b, hb, hev2⟩ := events_mem hev
          obtain ⟨har0, har1, _, _⟩ := hA.2.2.2 a ha
          obtain ⟨_, _, hbc0, hbc1⟩ := hbB b hb
          rw [inBoundaries_iff, heq, hev2]
          exact ⟨har0, har1, hbc0, hbc1⟩)
        (fun e _ => rfl)
    refine ⟨C, hC, hCinv, by rw [hCr]; rfl, by rw [hCc]; rfl, ?_⟩
    intro i j
    rw [hCval i j]
    have hz : elemVal (LLSparseMatrix.make A.rowCount B.colCount) i j = 0 := rfl
    rw [hz, hloop, mapGet_foldl _ [] List.Pairwise.nil (i, j), mapGet_nil,
      keySum_events A.entries hmono huB i j, dotSum_eq_contribs hA i j]
    omega

/-! Remaining support lemmas for the claim theorems. -/

theorem ElementAt_ok {m : LLSparseMatrix} {i j : Int} (h : InBoundaries m i j = true) :
    ElementAt m i j = .ok (elemVal m i j) := by
  unfold ElementAt elemVal lookupVal
  rw [if_neg (by simp [h])]
  cases hf : m.entries.find? (coordMatch i j) <;> simp [hf]

theorem ElementAt_err {m : LLSparseMatrix} {i j : Int}
    (h : ¬ InBoundaries m i j = true) :
    ElementAt m i j = .error .outOfBounds := by
  unfold ElementAt
  rw [if_pos h]

theorem inBoundaries_false_iff {m : LLSparseMatrix} {row col : Int} :
    (¬ InBoundaries m row col = true) ↔ OutOfRange m row col := by
  rw [inBoundaries_iff]
  unfold OutOfRange
  omega

theorem Transpose_countInv {m : LLSparseMatrix} (hm : CountInv m) :
    CountInv (Transpose m) := by
  refine ⟨Transpose_storeInv hm.1, ?_⟩
  show m.nonZeroElementsCount = (Transpose m).entries.length
  rw [(Transpose_entries_perm m).length_eq, List.length_map]
  exact hm.2

theorem Multiply_storeInv {A B : LLSparseMatrix} (hA : StoreInv A) (hB : StoreInv B)
    {C : LLSparseMatrix} (hC : Multiply A B = .ok C) : StoreInv C := by
  by_cases hdim : A.colCount = B.rowCount
  · obtain ⟨C2, hC2, hinv, _, _, _⟩ := Multiply_ok hA hB hdim
    rw [hC2] at hC
    injection hC with h
    rw [← h]
    exact hinv
  · rw [Multiply_dim_error hdim] at hC
    exact absurd hC (by simp)

/-! Nontermination of the deprecated multiply on the hang pair: after one
iteration the co-walk reaches the state (thisItr = null, otherItr at the
head of the transposed chain, isLastRow set) and every further iteration
reproduces it, so the C++ while loop never exits. -/

theorem depLoop_hang_cycle : ∀ (fuel : Nat) (b : Bool),
    depLoop [⟨0, 1, 1⟩, ⟨1, 1, 1⟩] fuel [] [⟨0, 1, 1⟩, ⟨1, 1, 1⟩] [⟨1, 0, 1⟩] b []
      = .fuelOut := by
  intro fuel
  induction fuel with
  | zero =>
    intro b
    rfl
  | succ n ih =>
    intro b
    exact ih true

theorem Transpose_depHangB :
    Transpose depHangB = ⟨2, 2, 2, [⟨0, 1, 1⟩, ⟨1, 1, 1⟩]⟩ := by
  simp [Transpose, SortByPosition, SplitList, MergeLists, GetPosition, depHangB]

theorem Transpose_depCrashB :
    Transpose depCrashB = ⟨2, 2, 2, [⟨0, 0, 1⟩, ⟨1, 1, 1⟩]⟩ := by
  simp [Transpose, SortByPosition, SplitList, MergeLists, GetPosition, depCrashB]

theorem depLoop_hang_all (fuel : Nat) :
    depLoop [⟨0, 1, 1⟩, ⟨1, 1, 1⟩] fuel [⟨1, 0, 1⟩] [⟨0, 1, 1⟩, ⟨1, 1, 1⟩]
      [⟨1, 0, 1⟩] false [] = .fuelOut := by
  cases fuel with
  | zero => rfl
  | succ n => exact depLoop_hang_cycle n false

theorem multiply_deprecated_hang (fuel : Nat) :
    Multiply_DEPRECATED depHangA depHangB fuel = .fuelOut := by
  have key : Multiply_DEPRECATED depHangA depHangB fuel =
      (match depLoop (Transpose depHangB).entries fuel depHangA.entries
          (Transpose depHangB).entries depHangA.entries false [] with
       | DepResult.nullDeref => DepOutcome.crash
       | DepResult.fuelOut => DepOutcome.fuelOut
       | DepResult.ok acc =>
         match writeMap acc (LLSparseMatrix.make depHangA.rowCount depHangB.colCount) with
         | Except.ok r => DepOutcome.ok r
         | Except.error e => DepOutcome.writeErr e) := rfl
  rw [key, Transpose_depHangB]
  rw [show ((⟨2, 2, 2, [⟨0, 1, 1⟩, ⟨1, 1, 1⟩]⟩ : LLSparseMatrix)).entries
      = [⟨0, 1, 1⟩, ⟨1, 1, 1⟩] from rfl,
    show depHangA.entries = [⟨1, 0, 1⟩] from rfl, depLoop_hang_all fuel]

theorem multiply_deprecated_crash :
    Multiply_DEPRECATED depCrashA depCrashB 64 = .crash := by
  have key : Multiply_DEPRECATED depCrashA depCrashB 64 =
      (match depLoop (Transpose depCrashB).entries 64 depCrashA.entries
          (Transpose depCrashB).entries depCrashA.entries false [] with
       | DepResult.nullDeref => DepOutcome.crash
       | DepResult.fuelOut => DepOutcome.fuelOut
       | DepResult.ok acc =>
         match writeMap acc (LLSparseMatrix.make depCrashA.rowCount depCrashB.colCount) with
         | Except.ok r => DepOutcome.ok r
         | Except.error e => DepOutcome.writeErr e) := rfl
  rw [key, Transpose_depCrashB]
  rfl

/-! Claim theorems. -/

/-- Claim C1: Multiply fails with the dimension-mismatch error exactly when
the column count of the left operand differs from the row count of the right
operand; on success the result has extents (A.row_count, B.col_count) and
every in-bounds element of the result equals the sum over the inner
dimension k of A.element_at(i, k) * B.element_at(k, j), for store-invariant
operands. -/
theorem claim_C1_multiply (A B : LLSparseMatrix) (hA : StoreInv A) (hB : StoreInv B) :
    ((∃ C, Multiply A B = .ok C) ↔ GetColCount A = GetRowCount B) ∧
    (Multiply A B = .error .dimensionMismatch ↔ ¬ GetColCount A = GetRowCount B) ∧
    ∀ C, Multiply A B = .ok C →
      GetRowCount C = GetRowCount A ∧ GetColCount C = GetColCount B ∧
      ∀ i j : Int, InBoundaries C i j = true →
        ElementAt C i j = .ok (dotSum A B i j) := by
  refine ⟨⟨?_, ?_⟩, ⟨?_, ?_⟩, ?_⟩
  · rintro ⟨C, hC⟩
    by_contra hdim
    rw [Multiply_dim_error hdim] at hC
    exact absurd hC (by simp)
  · intro hdim
    obtain ⟨C, hC, _⟩ := Multiply_ok hA hB hdim
    exact ⟨C, hC⟩
  · intro herr hdim
    obtain ⟨C, hC, _⟩ := Multiply_ok hA hB hdim
    rw [hC] at herr
    exact absurd herr (by simp)
  · exact Multiply_dim_error
  · intro C hC
    have hdim : GetColCount A = GetRowCount B := by
      by_contra hdim
      rw [Multiply_dim_error hdim] at hC
      exact absurd hC (by simp)
    obtain ⟨C2, hC2, _, hCr, hCc, hval⟩ := Multiply_ok hA hB hdim
    rw [hC2] at hC
    injection hC with h
    subst h
    refine ⟨hCr, hCc, ?_⟩
    intro i j hb
    rw [ElementAt_ok hb, hval i j]

/-- Witness for C1 at the dense example of the spec: multiplying the 2-by-3
matrix [[1,2,3],[4,5,6]] by the 3-by-2 matrix [[7,8],[9,10],[11,12]]
succeeds, and the dot products are 58, 64, 139, 154. -/
theorem claim_C1_multiply_witness :
    StoreInv matA ∧ StoreInv matB ∧ (∃ C, Multiply matA matB = Except.ok C) ∧
      dotSum matA matB 0 0 = 58 ∧ dotSum matA matB 0 1 = 64 ∧
      dotSum matA matB 1 0 = 139 ∧ dotSum matA matB 1 1 = 154 :=
  ⟨by decide, by decide,
    ((claim_C1_multiply matA matB (by decide) (by decide)).1).mpr (by decide),
    by decide, by decide, by decide, by decide⟩

/-- Counterexample to claim C2 as stated: after storing 5 at (0, 0) of a
1-by-1 matrix, set_element with the zero value leaves the entry in place
(the zero check returns before the walk), so element_at returns 5 and not
zero. -/
theorem claim_C2_counterexample :
    ElementAt (SetElement (SetElement (LLSparseMatrix.make 1 1) 0 0 5).1 0 0 0).1 0 0
        = .ok 5 ∧
      ¬ ElementAt (SetElement (SetElement (LLSparseMatrix.make 1 1) 0 0 5).1 0 0 0).1 0 0
        = .ok 0 := by
  constructor
  · rfl
  · intro h
    have h2 : (5 : Int) = 0 :=
      Except.ok.inj ((show ElementAt
        (SetElement (SetElement (LLSparseMatrix.make 1 1) 0 0 5).1 0 0 0).1 0 0
          = .ok 5 from rfl).symm.trans h)
    exact absurd h2 (by decide)

/-- Claim C2 amended: after set_element(r, c, v) with non-zero v in bounds,
element_at(r, c) returns v; set_element(r, c, zero) in bounds is a complete
no-op that leaves the matrix state unchanged (in particular it never removes
an existing entry). -/
theorem claim_C2_set_element (m : LLSparseMatrix) (row col v : Int)
    (h : InBoundaries m row col = true) :
    (v ≠ 0 → ElementAt (SetElement m row col v).1 row col = .ok v) ∧
    SetElement m row col 0 = (m, none) := by
  constructor
  · intro hv
    have hb2 : InBoundaries (SetElement m row col v).1 row col = true := by
      rw [inBoundaries_setElement]
      exact h
    rw [ElementAt_ok hb2, SetElement_elemVal_self h hv]
  · exact SetElement_zero h

/-- Witness for the amended C2 on a 1-by-1 matrix. -/
theorem claim_C2_set_element_witness :
    InBoundaries (LLSparseMatrix.make 1 1) 0 0 = true ∧
    ((5 : Int) ≠ 0 →
      ElementAt (SetElement (LLSparseMatrix.make 1 1) 0 0 5).1 0 0 = .ok 5) ∧
    SetElement (LLSparseMatrix.make 1 1) 0 0 0 = (LLSparseMatrix.make 1 1, none) :=
  ⟨by decide, (claim_C2_set_element (LLSparseMatrix.make 1 1) 0 0 5 (by decide)).1,
    (claim_C2_set_element (LLSparseMatrix.make 1 1) 0 0 0 (by decide)).2⟩

/-- Counterexample to claim C3 as stated: overwriting the existing entry at
(0, 0) of a 1-by-1 matrix increments nonZeroElementsCount (the increment
happens before the overwrite check), so the cached count is 2 while exactly
one coordinate holds a non-zero value. -/
theorem claim_C3_counterexample :
    GetNonZeroElementsCount
        (SetElement (SetElement (LLSparseMatrix.make 1 1) 0 0 1).1 0 0 2).1 = 2 ∧
      nonzeroCoordCount
        (SetElement (SetElement (LLSparseMatrix.make 1 1) 0 0 1).1 0 0 2).1 = 1 ∧
      (2 : Int) ≠ 1 := by
  refine ⟨rfl, ?_, by decide⟩
  decide

/-- Claim C3 amended: starting from an empty matrix the count invariant
(cached count equals both the chain length and the number of in-bounds
coordinates with a non-zero element) holds, and it is preserved by every
successful operation except a set_element that overwrites an existing entry:
a fresh non-zero set_element, remove_element, resize and transpose preserve
it; set_element with a zero value is a no-op and never decreases the count;
overwriting an existing entry with a non-zero value increments the cached
count by one while the number of non-zero coordinates stays the chain
length, breaking the equality. -/
theorem claim_C3_count (m : LLSparseMatrix) (row col v rows cols : Int)
    (hm : CountInv m) :
    CountInv (LLSparseMatrix.make rows cols) ∧
    ((nonzeroCoordCount m : Int) = GetNonZeroElementsCount m) ∧
    (hasCoord m.entries row col = false → CountInv (SetElement m row col v).1) ∧
    (InBoundaries m row col = true → SetElement m row col 0 = (m, none)) ∧
    (InBoundaries m row col = true → v ≠ 0 → hasCoord m.entries row col = true →
      GetNonZeroElementsCount (SetElement m row col v).1
          = GetNonZeroElementsCount m + 1 ∧
        (nonzeroCoordCount (SetElement m row col v).1 : Int)
          = GetNonZeroElementsCount m) ∧
    CountInv (RemoveElement m row col).1.1 ∧
    CountInv (Resize m rows cols).1 ∧
    CountInv (Transpose m) := by
  obtain ⟨hsi, hcount⟩ := hm
  refine ⟨⟨make_storeInv rows cols, rfl⟩, ?_, ?_, ?_, ?_,
    RemoveElement_countInv ⟨hsi, hcount⟩, Resize_countInv ⟨hsi, hcount⟩,
    Transpose_countInv ⟨hsi, hcount⟩⟩
  · rw [nonzeroCoordCount_eq_length hsi]
    exact hcount.symm
  · intro hfresh
    exact SetElement_countInv_fresh ⟨hsi, hcount⟩ hfresh
  · intro hb
    exact SetElement_zero hb
  · intro hb hv hdup
    obtain ⟨h1, h2⟩ := SetElement_count_overwrite hsi hb hv hdup
    refine ⟨h1, ?_⟩
    rw [nonzeroCoordCount_eq_length (SetElement_storeInv hsi), h2]
    exact hcount.symm

/-- Witness for the amended C3: the dense 2-by-3 matrix satisfies the count
invariant, and its dense non-zero coordinate count equals the cached one. -/
theorem claim_C3_count_witness :
    CountInv matA ∧ (nonzeroCoordCount matA : Int) = GetNonZeroElementsCount matA :=
  ⟨by decide, (claim_C3_count matA 0 0 7 3 4 (by decide)).2.1⟩

/-- Claim C4: transpose exchanges coordinates (the element of the transposed
matrix at (i, j) is the original element at (j, i)) and is an involution on
extents, cached count and every element value, for a store-invariant
matrix. -/
theorem claim_C4_transpose (m : LLSparseMatrix) (hm : StoreInv m) :
    (∀ i j : Int, InBoundaries (Transpose m) i j = true →
      ElementAt (Transpose m) i j = ElementAt m j i) ∧
    GetRowCount (Transpose (Transpose m)) = GetRowCount m ∧
    GetColCount (Transpose (Transpose m)) = GetColCount m ∧
    GetNonZeroElementsCount (Transpose (Transpose m)) = GetNonZeroElementsCount m ∧
    ∀ i j : Int, ElementAt (Transpose (Transpose m)) i j = ElementAt m i j := by
  refine ⟨?_, rfl, rfl, rfl, ?_⟩
  · intro i j hb
    have hb2 : InBoundaries m j i = true := by
      rw [← Transpose_inBoundaries]
      exact hb
    rw [ElementAt_ok hb, ElementAt_ok hb2, Transpose_elemVal hm i j]
  · intro i j
    have hbb : InBoundaries (Transpose (Transpose m)) i j = InBoundaries m i j := by
      rw [Transpose_inBoundaries, Transpose_inBoundaries]
    by_cases hb : InBoundaries m i j = true
    · rw [ElementAt_ok (by rw [hbb]; exact hb), ElementAt_ok hb,
        Transpose_elemVal (Transpose_storeInv hm) i j, Transpose_elemVal hm j i]
    · rw [ElementAt_err (by rw [hbb]; exact hb), ElementAt_err hb]

/-- Witness for C4 on the dense 2-by-3 matrix at coordinate (2, 1). -/
theorem claim_C4_transpose_witness :
    StoreInv matA ∧ ElementAt (Transpose matA) 2 1 = ElementAt matA 1 2 :=
  ⟨by decide, (claim_C4_transpose matA (by decide)).1 2 1 (by decide)⟩

/-- Claim C5: resize fails with the invalid-resize error exactly when either
new extent is strictly smaller than the current one, leaving the matrix
unmodified; on success the extents become the requested ones and every
previously in-bounds coordinate keeps its element value. -/
theorem claim_C5_resize (m : LLSparseMatrix) (rows cols : Int) :
    ((Resize m rows cols).2 = some .invalidResize ↔
      rows < GetRowCount m ∨ cols < GetColCount m) ∧
    ((Resize m rows cols).2 = some .invalidResize → (Resize m rows cols).1 = m) ∧
    ((Resize m rows cols).2 = none →
      GetRowCount (Resize m rows cols).1 = rows ∧
      GetColCount (Resize m rows cols).1 = cols ∧
      ∀ r c : Int, InBoundaries m r c = true →
        ElementAt (Resize m rows cols).1 r c = ElementAt m r c) := by
  by_cases h : rows < m.rowCount ∨ cols < m.colCount
  · rw [Resize_fail h]
    refine ⟨iff_of_true rfl h, fun _ => rfl, ?_⟩
    intro hnone
    exact absurd hnone (by simp)
  · rw [Resize_ok_state h]
    refine ⟨iff_of_false (by simp) h, ?_, ?_⟩
    · intro hc
      exact absurd hc (by simp)
    · intro _
      refine ⟨rfl, rfl, ?_⟩
      intro r c hb
      have hb2 : InBoundaries
          { m with rowCount := rows, colCount := cols } r c = true := by
        rw [inBoundaries_iff]
        show 0 ≤ r ∧ r < rows ∧ 0 ≤ c ∧ c < cols
        rw [inBoundaries_iff] at hb
        push_neg at h
        omega
      rw [ElementAt_ok hb2, ElementAt_ok hb]
      rfl

/-- Witness for C5: shrinking the 2-by-3 matrix fails and leaves it intact;
growing it to 3-by-4 updates the row extent. -/
theorem claim_C5_resize_witness :
    (Resize matA 1 1).2 = some MatrixError.invalidResize ∧
    (Resize matA 1 1).1 = matA ∧ GetRowCount (Resize matA 3 4).1 = 3 :=
  ⟨((claim_C5_resize matA 1 1).1).mpr (by decide),
    (claim_C5_resize matA 1 1).2.1 (((claim_C5_resize matA 1 1).1).mpr (by decide)),
    ((claim_C5_resize matA 3 4).2.2 (by decide)).1⟩

/-- Claim C6: element_at, set_element and remove_element fail with the
out-of-bounds error exactly when the row or column is negative or at or past
the corresponding extent, regardless of the matrix contents, and a failing
call leaves the matrix state unchanged. -/
theorem claim_C6_bounds (m : LLSparseMatrix) (row col v : Int) :
    (ElementAt m row col = .error .outOfBounds ↔ OutOfRange m row col) ∧
    ((SetElement m row col v).2 = some .outOfBounds ↔ OutOfRange m row col) ∧
    ((RemoveElement m row col).2 = some .outOfBounds ↔ OutOfRange m row col) ∧
    (OutOfRange m row col →
      SetElement m row col v = (m, some .outOfBounds) ∧
      RemoveElement m row col = ((m, false), some .outOfBounds)) := by
  by_cases h : InBoundaries m row col = true
  · have hno : ¬ OutOfRange m row col := fun hc => inBoundaries_false_iff.mpr hc h
    refine ⟨iff_of_false ?_ hno, iff_of_false ?_ hno, iff_of_false ?_ hno,
      fun hc => absurd hc hno⟩
    · rw [ElementAt_ok h]
      simp
    · rw [SetElement_err, if_pos h]
      simp
    · rw [RemoveElement_ok_state h]
      simp
  · have hyes : OutOfRange m row col := inBoundaries_false_iff.mp h
    refine ⟨iff_of_true (ElementAt_err h) hyes, iff_of_true ?_ hyes,
      iff_of_true ?_ hyes, fun _ => ⟨SetElement_fail h, RemoveElement_fail h⟩⟩
    · rw [SetElement_fail h]
    · rw [RemoveElement_fail h]

/-- Witness for C6: coordinate (5, 0) is out of range for the 2-by-3 matrix
and element_at fails there. -/
theorem claim_C6_bounds_witness :
    OutOfRange matA 5 0 ∧ ElementAt matA 5 0 = Except.error MatrixError.outOfBounds :=
  ⟨by decide, ((claim_C6_bounds matA 5 0 7).1).mpr (by decide)⟩

/-- Claim C7: every public operation preserves the store invariant (entries
in non-decreasing position order against the current column count, no
duplicate coordinate, no stored zero value, all entries within the current
extents): set_element, remove_element, resize and transpose preserve it, and
the result of a successful multiply of two store-invariant matrices
satisfies it. -/
theorem claim_C7_store_invariant (m other : LLSparseMatrix)
    (row col v rows cols : Int) (hm : StoreInv m) (hother : StoreInv other) :
    StoreInv (SetElement m row col v).1 ∧
    StoreInv (RemoveElement m row col).1.1 ∧
    StoreInv (Resize m rows cols).1 ∧
    StoreInv (Transpose m) ∧
    ∀ C, Multiply m other = .ok C → StoreInv C :=
  ⟨SetElement_storeInv hm, RemoveElement_storeInv hm, Resize_storeInv hm,
    Transpose_storeInv hm, fun _ hC => Multiply_storeInv hm hother hC⟩

/-- Witness for C7: the dense 2-by-3 matrix is store-invariant and stays so
after a set_element. -/
theorem claim_C7_store_invariant_witness :
    StoreInv matA ∧ StoreInv (SetElement matA 0 0 9).1 :=
  ⟨by decide,
    (claim_C7_store_invariant matA matB 0 0 9 5 5 (by decide) (by decide)).1⟩

/-- Claim C8: a Multiply call does not mutate either operand: the operand
states after the call equal the operand states before it in every observable
component (extents, entry chain, cached count), and the returned value is
the one computed by the Multiply function of the two operand values. -/
theorem claim_C8_multiply_frame (A B : LLSparseMatrix)
    (_h : GetColCount A = GetRowCount B) :
    (MultiplyCall A B).1 = A ∧ (MultiplyCall A B).2.1 = B ∧
    GetRowCount (MultiplyCall A B).1 = GetRowCount A ∧
    GetColCount (MultiplyCall A B).1 = GetColCount A ∧
    GetNonZeroElementsCount (MultiplyCall A B).1 = GetNonZeroElementsCount A ∧
    (MultiplyCall A B).1.entries = A.entries ∧
    GetRowCount (MultiplyCall A B).2.1 = GetRowCount B ∧
    GetColCount (MultiplyCall A B).2.1 = GetColCount B ∧
    GetNonZeroElementsCount (MultiplyCall A B).2.1 = GetNonZeroElementsCount B ∧
    (MultiplyCall A B).2.1.entries = B.entries ∧
    (MultiplyCall A B).2.2 = Multiply A B :=
  ⟨rfl, rfl, rfl, rfl, rfl, rfl, rfl, rfl, rfl, rfl, rfl⟩

/-- Witness for C8 on the dense multiplication example. -/
theorem claim_C8_multiply_frame_witness :
    GetColCount matA = GetRowCount matB ∧ (MultiplyCall matA matB).1 = matA :=
  ⟨by decide, (claim_C8_multiply_frame matA matB (by decide)).1⟩

/-- Claim C9 (against the spec-modelled default constructor, since the C++
default constructor leaves the members uninitialized): the modelled default
matrix is the empty 0-by-0 matrix with zero non-zero count. -/
theorem claim_C9_default :
    GetRowCount defaultLLSparseMatrix = 0 ∧
    GetColCount defaultLLSparseMatrix = 0 ∧
    GetNonZeroElementsCount defaultLLSparseMatrix = 0 :=
  ⟨rfl, rfl, rfl⟩

/-- Claim C10 evaluation: on the hang pair (left operand with the single
entry (1, 0), right operand with entries only in row 1) the deprecated
co-walk never terminates for any fuel, while Multiply returns the zero
2-by-2 matrix; on the crash pair (empty left operand, two-entry right
operand) the deprecated co-walk dereferences a null pointer, while Multiply
again returns the zero 2-by-2 matrix. -/
theorem claim_C10_deprecated :
    (∀ fuel : Nat, Multiply_DEPRECATED depHangA depHangB fuel = .fuelOut) ∧
    Multiply depHangA depHangB = .ok ⟨2, 2, 0, []⟩ ∧
    Multiply_DEPRECATED depCrashA depCrashB 64 = .crash ∧
    Multiply depCrashA depCrashB = .ok ⟨2, 2, 0, []⟩ :=
  ⟨multiply_deprecated_hang, rfl, multiply_deprecated_crash, rfl⟩

end SparseMatrices
